import Mathlib

/-!
Shallow embedding of the qbuf repository: the segmented byte queue
`BufferQueue` from src/qbufmodule.c and the contiguous ring buffer `Ringbuf`
from src/ringbuf.c.  Bytes are modelled as `Nat`.  A byte read that is out
of bounds in the C code (undefined behaviour there) is modelled by the
sentinel value 256, which no stored byte equals in a real execution.
Python-object plumbing (argument parsing, reference counting, allocation
failure) is out of scope; the `as_buffer` zero-copy path of
`BufferQueue_pop` is never taken by the operations treated here (all the
callers modelled pass `as_buffer = 0`).
-/

set_option autoImplicit false

/-- A byte read `p[i]` where `i` may be negative (out-of-bounds in C,
modelled by the sentinel 256). -/
def byteAtI (s : List Nat) (i : Int) : Nat :=
  if i < 0 then 256 else s.getD i.toNat 256

/-- Python `str.find(sub, from)` as invoked by `BufferQueue_find_delim`
(src/qbufmodule.c:236-237): the smallest index `i ≥ from` at which `sub`
occurs wholly inside `s`, or -1 when there is none. -/
def pyFind (s sub : List Nat) (from_ : Nat) : Int :=
  match (List.range (s.length + 1)).find? (fun i =>
      decide (from_ ≤ i) && decide (i + sub.length ≤ s.length) &&
      decide ((s.drop i).take sub.length = sub)) with
  | some i => (i : Int)
  | none => -1

/-- State of `BufferQueue` (src/qbufmodule.c:53-63).  `buffer` is the
circular chunk array of physical size `buffer_length`; slots outside the
live window hold stale entries, modelled as arbitrary leftover values. -/
structure BufferQueue where
  buffer : List (List Nat)
  start_idx : Nat
  end_idx : Nat
  buffer_length : Nat
  n_items : Nat
  tot_length : Nat
  cur_offset : Nat
  delim_obj : Option (List Nat)
deriving Repr, DecidableEq

/-- `BufferQueue_advance_start` (src/qbufmodule.c:149-157). -/
def BufferQueue_advance_start (q : BufferQueue) : BufferQueue :=
  let s := q.start_idx + 1
  { q with cur_offset := 0, n_items := q.n_items - 1,
           start_idx := if s = q.buffer_length then 0 else s }

/-- The growth step of `BufferQueue_push` (src/qbufmodule.c:120-139): a
fresh array of twice the size, the live window copied into its upper half.
The freshly allocated lower half is uninitialised in C; it is modelled by
`[]` slots (never read while the invariant holds). -/
def BufferQueue_grow (q : BufferQueue) : BufferQueue :=
  let upper := if q.start_idx = 0 ∧ q.end_idx = 0 then q.buffer
    else q.buffer.drop q.start_idx ++ q.buffer.take q.end_idx
  { q with buffer := List.replicate q.buffer_length [] ++ upper,
           start_idx := q.buffer_length, end_idx := 0,
           buffer_length := 2 * q.buffer_length }

/-- `BufferQueue_push` (src/qbufmodule.c:112-147): empty strings are
dropped; a full chunk ring doubles first.  Allocation failure is out of
scope. -/
def BufferQueue_push (q : BufferQueue) (s : List Nat) : BufferQueue :=
  if s.length = 0 then q
  else
    let q1 := if q.n_items = q.buffer_length then BufferQueue_grow q else q
    let q2 := { q1 with buffer := q1.buffer.set q1.end_idx s }
    let e := q2.end_idx + 1
    { q2 with end_idx := if e = q2.buffer_length then 0 else e,
              n_items := q2.n_items + 1,
              tot_length := q2.tot_length + s.length }

/-- The chunk-by-chunk copy loop of `BufferQueue_pop`
(src/qbufmodule.c:192-209).  The fuel argument only bounds the recursion;
`remaining` shrinks by at least one byte per round whenever the state
invariant holds, so fuel `len` suffices for `BufferQueue_pop`. -/
def BufferQueue_popLoop : Nat → BufferQueue → Nat → List Nat → List Nat × BufferQueue
  | 0, q, _, acc => (acc, q)
  | fuel + 1, q, remaining, acc =>
    if remaining = 0 then (acc, q)
    else
      let cur := q.buffer.getD q.start_idx []
      if cur.length ≤ remaining + q.cur_offset then
        BufferQueue_popLoop fuel (BufferQueue_advance_start q)
          (remaining - (cur.length - q.cur_offset)) (acc ++ cur.drop q.cur_offset)
      else
        (acc ++ (cur.drop q.cur_offset).take remaining,
         { q with cur_offset := q.cur_offset + remaining })

/-- `BufferQueue_pop` with `as_buffer = 0` (src/qbufmodule.c:159-221). -/
def BufferQueue_pop (q : BufferQueue) (len : Nat) : List Nat × BufferQueue :=
  if len = 0 then ([], q)
  else
    let cur := q.buffer.getD q.start_idx []
    let p :=
      if q.cur_offset = 0 ∧ cur.length = len then
        (cur, BufferQueue_advance_start q)
      else if q.cur_offset + len = cur.length then
        ((cur.drop q.cur_offset).take len, BufferQueue_advance_start q)
      else
        BufferQueue_popLoop len q len []
    (p.1, { p.2 with tot_length := q.tot_length - len })

/-- `BufferQueue_pop` called with a signed length, as `BufferQueue_popline`
and `BufferQueue_iternext` do.  With a negative length the C code falls
through to `PyString_FromStringAndSize` with a negative size (line 184 or
189), which fails, so the call errors before mutating any state. -/
def BufferQueue_popSigned (q : BufferQueue) (len : Int) : Option (List Nat × BufferQueue) :=
  if len < 0 then none else some (BufferQueue_pop q len.toNat)

/-- The byte-by-byte comparison of the straddle scan in
`BufferQueue_find_delim` (src/qbufmodule.c:252-256), advancing a copy of
the iterator with `BufferQueueIterator_advance_char` (104-110).  The C
code ignores the end-of-window result of `advance_string`, so once the
iterator steps past `end_idx` further reads keep using the stale cached
chunk; `cur` models that cache. -/
def BufferQueue_splitCompare (q : BufferQueue) : List Nat → List Nat → Nat → Int → Bool
  | [], _, _, _ => true
  | b :: rest, cur, sidx, cidx =>
    if byteAtI cur cidx ≠ b then false
    else
      let c := cidx + 1
      if c = (cur.length : Int) then
        let s0 := sidx + 1
        let s1 := if s0 = q.buffer_length then 0 else s0
        if s1 = q.end_idx then BufferQueue_splitCompare q rest cur s1 0
        else BufferQueue_splitCompare q rest (q.buffer.getD s1 []) s1 0
      else BufferQueue_splitCompare q rest cur sidx c

/-- The straddle scan of `BufferQueue_find_delim` (src/qbufmodule.c:247-259):
candidate offsets `1 ≤ offset < d.length`, stopping as soon as
`pos + offset` exceeds `tot_length`.  The returned value
`pos - d.length + offset` can be negative, exactly as in the C code. -/
def BufferQueue_straddleGo (q : BufferQueue) (d cur : List Nat) (sidx pos : Nat) :
    Nat → Nat → Option Int
  | 0, _ => none
  | fuel + 1, offset =>
    if d.length ≤ offset then none
    else if q.tot_length < pos + offset then none
    else if BufferQueue_splitCompare q d cur sidx ((cur.length : Int) - d.length + offset) then
      some ((pos : Int) - d.length + offset)
    else BufferQueue_straddleGo q d cur sidx pos fuel (offset + 1)

/-- The per-chunk loop of `BufferQueue_find_delim` (src/qbufmodule.c:235-260).
The fuel bounds the number of chunks visited; a C execution visits at most
`buffer_length` chunks, so the fuel `buffer_length + 1` used by
`BufferQueue_find_delim` is never exhausted. -/
def BufferQueue_findLoop (q : BufferQueue) (d : List Nat) :
    Nat → Nat → Nat → Nat → Int
  | 0, _, _, _ => -1
  | fuel + 1, sidx, cidx, pos =>
    let s := q.buffer.getD sidx []
    let f := pyFind s d cidx
    if f ≠ -1 then (pos : Int) + f - cidx
    else
      let pos1 := pos + (s.length - cidx)
      match BufferQueue_straddleGo q d s sidx pos1 d.length 1 with
      | some v => v
      | none =>
        let n0 := sidx + 1
        let n1 := if n0 = q.buffer_length then 0 else n0
        if n1 = q.end_idx then -1
        else BufferQueue_findLoop q d fuel n1 0 pos1

/-- `BufferQueue_find_delim` (src/qbufmodule.c:223-265). -/
def BufferQueue_find_delim (q : BufferQueue) (d : List Nat) : Int :=
  if q.tot_length < d.length then -1
  else BufferQueue_findLoop q d (q.buffer_length + 1) q.start_idx q.cur_offset 0

/-- Error outcomes of the modelled operations.  `noDelim` is the
ValueError "no delimiter", `notFound` the ValueError "delimiter not
found", `invalidArg` the ValueError for a negative length, `underflow`
the BufferUnderflow exception, `popFail` a failure inside an inner pop
(in C, `PyString_FromStringAndSize` on a negative size), and
`stopIteration` the StopIteration of the iteration protocol. -/
inductive QbufError where
  | noDelim | notFound | invalidArg | underflow | popFail | stopIteration
deriving Repr, DecidableEq

/-- The delimiter `BufferQueue_popline` uses (src/qbufmodule.c:273-274):
the override when supplied, else the configured one. -/
def effDelim (q : BufferQueue) (ov : Option (List Nat)) : Option (List Nat) :=
  match ov with
  | some d => some d
  | none => q.delim_obj

/-- `BufferQueue_popline` (src/qbufmodule.c:267-289), with the
`result == 0` outcome of the C helper mapped to `notFound` as
`BufferQueue_dopopline` (589-610) does. -/
def BufferQueue_popline (q : BufferQueue) (ov : Option (List Nat)) :
    Except QbufError (List Nat) × BufferQueue :=
  match effDelim q ov with
  | none => (.error .noDelim, q)
  | some d =>
    if d.length = 0 then (.error .noDelim, q)
    else
      let r := BufferQueue_find_delim q d
      if r = -1 then (.error .notFound, q)
      else
        match BufferQueue_popSigned q r with
        | none => (.error .popFail, q)
        | some (line, q1) =>
          let p2 := BufferQueue_pop q1 d.length
          (.ok line, p2.2)

/-- `BufferQueue_dopop` (src/qbufmodule.c:454-473) with an explicit
length argument. -/
def BufferQueue_dopop (q : BufferQueue) (n : Int) : Except QbufError (List Nat) × BufferQueue :=
  if n < 0 then (.error .invalidArg, q)
  else if (q.tot_length : Int) < n then (.error .underflow, q)
  else
    let p := BufferQueue_pop q n.toNat
    (.ok p.1, p.2)

/-- `BufferQueue_dopop_atmost` (src/qbufmodule.c:483-499). -/
def BufferQueue_dopop_atmost (q : BufferQueue) (n : Int) :
    Except QbufError (List Nat) × BufferQueue :=
  if n < 0 then (.error .invalidArg, q)
  else
    let m := if (q.tot_length : Int) < n then q.tot_length else n.toNat
    let p := BufferQueue_pop q m
    (.ok p.1, p.2)

/-- The collection loop of `BufferQueue_dopoplines` (src/qbufmodule.c:639-643). -/
def BufferQueue_poplinesGo (ov : Option (List Nat)) :
    Nat → BufferQueue → List (List Nat) →
    Except QbufError (List (List Nat)) × BufferQueue
  | 0, q, _ => (.error .popFail, q)
  | fuel + 1, q, acc =>
    match BufferQueue_popline q ov with
    | (.ok line, q') => BufferQueue_poplinesGo ov fuel q' (acc ++ [line])
    | (.error .notFound, q') => (.ok acc, q')
    | (.error e, q') => (.error e, q')

/-- `BufferQueue_dopoplines` (src/qbufmodule.c:622-649).  The fuel
`tot_length + 1` is never exhausted: every successful `popline` removes at
least one byte. -/
def BufferQueue_poplines (q : BufferQueue) (ov : Option (List Nat)) :
    Except QbufError (List (List Nat)) × BufferQueue :=
  BufferQueue_poplinesGo ov (q.tot_length + 1) q []

/-- `BufferQueue_iternext` (src/qbufmodule.c:702-718): one iteration step
pops `offset + delimiter length` bytes, i.e. the line with its
delimiter still attached. -/
def BufferQueue_iternext (q : BufferQueue) : Except QbufError (List Nat) × BufferQueue :=
  match q.delim_obj with
  | none => (.error .noDelim, q)
  | some d =>
    let r := BufferQueue_find_delim q d
    if r = -1 then (.error .stopIteration, q)
    else
      match BufferQueue_popSigned q (r + d.length) with
      | none => (.error .popFail, q)
      | some (v, q') => (.ok v, q')

/-- `BufferQueue_doclear` (src/qbufmodule.c:657-664): counters reset, the
chunk array keeps its size and its now-stale entries. -/
def BufferQueue_doclear (q : BufferQueue) : BufferQueue :=
  { q with start_idx := 0, end_idx := 0, n_items := 0, tot_length := 0, cur_offset := 0 }

/-- `BufferQueue_setdelim` (src/qbufmodule.c:360-375): `None` or an empty
string both clear the delimiter. -/
def BufferQueue_setdelim (q : BufferQueue) (v : Option (List Nat)) : BufferQueue :=
  match v with
  | none => { q with delim_obj := none }
  | some d =>
    if d.length = 0 then { q with delim_obj := none } else { q with delim_obj := some d }

/-- `BufferQueue_new` + `BufferQueue_init` (src/qbufmodule.c:311-347):
eight fresh slots, delimiter set through `BufferQueue_setdelim`. -/
def BufferQueue_mk (delim : Option (List Nat)) : BufferQueue :=
  BufferQueue_setdelim
    { buffer := List.replicate 8 [], start_idx := 0, end_idx := 0, buffer_length := 8,
      n_items := 0, tot_length := 0, cur_offset := 0, delim_obj := none } delim

/-- State of `Ringbuf` (src/ringbuf.c:14-24).  The pointers are kept as
offsets into `storage`; both can equal `buffer_size` (one past the end),
exactly as the C pointers can equal `buffer_end`.  `delimiter = []`
models both a NULL delimiter and an empty one (both have
`delim_size == 0` in C). -/
structure Ringbuf where
  storage : List Nat
  ptr_start : Nat
  ptr_end : Nat
  length : Nat
  buffer_size : Nat
  delimiter : List Nat
deriving Repr, DecidableEq

/-- Overwrite `data.length` bytes of `s` starting at `pos` (a `memcpy`
into the backing store). -/
def writeBytes (s : List Nat) (pos : Nat) (data : List Nat) : List Nat :=
  s.take pos ++ data ++ s.drop (pos + data.length)

/-- `Ringbuf_push` (src/ringbuf.c:26-45). -/
def Ringbuf_push (r : Ringbuf) (data : List Nat) : Except Unit Unit × Ringbuf :=
  if r.buffer_size < data.length + r.length then (.error (), r)
  else if r.buffer_size < r.ptr_end + data.length then
    let ov := r.buffer_size - r.ptr_end
    let st := writeBytes (writeBytes r.storage r.ptr_end (data.take ov)) 0 (data.drop ov)
    (.ok (), { r with storage := st, ptr_end := data.length - ov,
                      length := r.length + data.length })
  else
    (.ok (), { r with storage := writeBytes r.storage r.ptr_end data,
                      ptr_end := r.ptr_end + data.length,
                      length := r.length + data.length })

/-- `Ringbuf_pop` (src/ringbuf.c:47-74). -/
def Ringbuf_pop (r : Ringbuf) (n : Nat) : Option (List Nat × Ringbuf) :=
  if r.length < n then none
  else if r.buffer_size < r.ptr_start + n then
    let ov := r.buffer_size - r.ptr_start
    some ((r.storage.drop r.ptr_start).take ov ++ r.storage.take (n - ov),
      { r with ptr_start := n - ov, length := r.length - n })
  else
    some ((r.storage.drop r.ptr_start).take n,
      { r with ptr_start := r.ptr_start + n, length := r.length - n })

/-- One candidate comparison inside `Ringbuf_find_delim`
(src/ringbuf.c:86-119): `ov` is `buffer_end - ptr_start`. -/
def ringMatchAt (r : Ringbuf) (ov delta : Nat) : Bool :=
  if ov < delta then
    decide ((r.storage.drop (delta - ov)).take r.delimiter.length = r.delimiter)
  else
    let b := r.ptr_start + delta
    if b + r.delimiter.length ≤ r.buffer_size then
      decide ((r.storage.drop b).take r.delimiter.length = r.delimiter)
    else
      decide ((r.storage.drop b).take (r.buffer_size - b) =
          r.delimiter.take (r.buffer_size - b)) &&
      decide (r.storage.take (r.delimiter.length - (r.buffer_size - b)) =
          r.delimiter.drop (r.buffer_size - b))

/-- `Ringbuf_find_delim` (src/ringbuf.c:76-122). -/
def Ringbuf_find_delim (r : Ringbuf) : Option Nat :=
  if r.length < r.delimiter.length then none
  else
    (List.range (r.length - r.delimiter.length + 1)).find?
      (fun delta => ringMatchAt r (r.buffer_size - r.ptr_start) delta)

/-- `Ringbuf_dopop` (src/ringbuf.c:270-292). -/
def Ringbuf_dopop (r : Ringbuf) (n : Int) : Except QbufError (List Nat) × Ringbuf :=
  if n < 0 then (.error .invalidArg, r)
  else
    match Ringbuf_pop r n.toNat with
    | none => (.error .underflow, r)
    | some (v, r') => (.ok v, r')

/-- `Ringbuf_dopopline` (src/ringbuf.c:294-311).  The popped string keeps
the delimiter attached: the C code pops `out_string_size + delim_size`
bytes and returns them all. -/
def Ringbuf_dopopline (r : Ringbuf) : Except QbufError (List Nat) × Ringbuf :=
  if r.delimiter.length = 0 then (.error .noDelim, r)
  else
    match Ringbuf_find_delim r with
    | none => (.error .notFound, r)
    | some k =>
      match Ringbuf_pop r (k + r.delimiter.length) with
      | none => (.error .popFail, r)
      | some (v, r') => (.ok v, r')

/-- The collection loop of `Ringbuf_dopoplines` (src/ringbuf.c:323-328).
The inner pop cannot fail (the match offset plus the delimiter length
never exceeds `length`); the `none` fallthrough is unreachable. -/
def Ringbuf_poplinesGo : Nat → Ringbuf → List (List Nat) → List (List Nat) × Ringbuf
  | 0, r, acc => (acc, r)
  | fuel + 1, r, acc =>
    match Ringbuf_find_delim r with
    | none => (acc, r)
    | some k =>
      match Ringbuf_pop r (k + r.delimiter.length) with
      | none => (acc, r)
      | some (v, r') => Ringbuf_poplinesGo fuel r' (acc ++ [v])

/-- `Ringbuf_dopoplines` (src/ringbuf.c:313-330). -/
def Ringbuf_dopoplines (r : Ringbuf) : Except QbufError (List (List Nat)) × Ringbuf :=
  if r.delimiter.length = 0 then (.error .noDelim, r)
  else
    let p := Ringbuf_poplinesGo (r.length + 1) r []
    (.ok p.1, p.2)

/-- `Ringbuf_setdelim` (src/ringbuf.c:177-206): `None` clears, otherwise
the bytes are copied. -/
def Ringbuf_setdelim (r : Ringbuf) (v : Option (List Nat)) : Ringbuf :=
  match v with
  | none => { r with delimiter := [] }
  | some d => { r with delimiter := d }

/-- `Ringbuf_init` (src/ringbuf.c:132-169): `size` junk-filled bytes
(sentinel 256), both pointers at offset 0. -/
def Ringbuf_mk (size : Nat) (delim : Option (List Nat)) : Ringbuf :=
  { storage := List.replicate size 256, ptr_start := 0, ptr_end := 0, length := 0,
    buffer_size := size, delimiter := delim.getD [] }

/-- The chunks of the live window, front first. -/
def windowChunks (q : BufferQueue) : List (List Nat) :=
  (List.range q.n_items).map (fun i => q.buffer.getD ((q.start_idx + i) % q.buffer_length) [])

/-- The unconsumed logical byte sequence of a `BufferQueue`. -/
def qContents (q : BufferQueue) : List Nat :=
  (windowChunks q).flatten.drop q.cur_offset

/-- The buffered logical byte sequence of a `Ringbuf`. -/
def rcontents (r : Ringbuf) : List Nat :=
  (List.range r.length).map (fun i => r.storage.getD ((r.ptr_start + i) % r.buffer_size) 256)

/-- The window part of the `BufferQueue` state invariant: everything the
pop loop maintains while `tot_length` is temporarily stale. -/
def WInv (q : BufferQueue) : Prop :=
  0 < q.buffer_length ∧
  q.buffer.length = q.buffer_length ∧
  q.start_idx < q.buffer_length ∧
  q.end_idx < q.buffer_length ∧
  q.n_items ≤ q.buffer_length ∧
  q.end_idx = (q.start_idx + q.n_items) % q.buffer_length ∧
  (∀ c ∈ windowChunks q, c ≠ []) ∧
  (if q.n_items = 0 then q.cur_offset = 0
   else q.cur_offset < (q.buffer.getD q.start_idx []).length)

instance (q : BufferQueue) : Decidable (WInv q) := by
  unfold WInv; infer_instance

/-- The state invariant of `BufferQueue` maintained by every operation. -/
def QInv (q : BufferQueue) : Prop :=
  WInv q ∧ q.tot_length = (qContents q).length

instance (q : BufferQueue) : Decidable (QInv q) := by
  unfold QInv; infer_instance

/-- The invariants named by the specification for the segmented queue. -/
def ClaimInv (q : BufferQueue) : Prop :=
  (q.n_items = q.buffer_length ∨
   q.n_items = (q.buffer_length + q.end_idx - q.start_idx) % q.buffer_length) ∧
  q.tot_length = (windowChunks q).flatten.length - q.cur_offset ∧
  (0 < q.n_items → q.cur_offset < (q.buffer.getD q.start_idx []).length)

/-- The state invariant of `Ringbuf` maintained by every operation. -/
def WFr (r : Ringbuf) : Prop :=
  r.storage.length = r.buffer_size ∧
  r.ptr_start ≤ r.buffer_size ∧
  r.ptr_end ≤ r.buffer_size ∧
  r.length ≤ r.buffer_size ∧
  r.ptr_end % r.buffer_size = (r.ptr_start + r.length) % r.buffer_size

instance (r : Ringbuf) : Decidable (WFr r) := by
  unfold WFr; infer_instance

/-- Specification-level first-occurrence search: the smallest offset at
which `d` occurs inside `l`, independent of any chunk or wrap structure. -/
def specFindFirst (l d : List Nat) : Option Nat :=
  (List.range (l.length + 1)).find? (fun i => d.isPrefixOf (l.drop i))

/-- Operations of the segmented queue used by the conservation theorem. -/
inductive QOp where
  | push : List Nat → QOp
  | pop : Int → QOp
  | popAtMost : Int → QOp
  | popLine : Option (List Nat) → QOp
deriving Repr, DecidableEq

/-- `true` for the three pop-flavoured operations. -/
def QOp.isPopOp : QOp → Bool
  | .push _ => false
  | _ => true

/-- One operation step of the segmented queue, returning the bytes removed
from the front, the bytes stored at the back, and the next state.  The
`popLine` case mirrors `BufferQueue_popline` branch by branch, keeping the
delimiter bytes the C code pops and discards (line 284-286). -/
def qstep (q : BufferQueue) : QOp → List Nat × List Nat × BufferQueue
  | .push s => ([], s, BufferQueue_push q s)
  | .pop n =>
    match BufferQueue_dopop q n with
    | (.ok v, q') => (v, [], q')
    | (.error _, q') => ([], [], q')
  | .popAtMost n =>
    match BufferQueue_dopop_atmost q n with
    | (.ok v, q') => (v, [], q')
    | (.error _, q') => ([], [], q')
  | .popLine ov =>
    match effDelim q ov with
    | none => ([], [], q)
    | some d =>
      if d.length = 0 then ([], [], q)
      else
        let r := BufferQueue_find_delim q d
        if r = -1 then ([], [], q)
        else
          match BufferQueue_popSigned q r with
          | none => ([], [], q)
          | some (line, q1) =>
            let p2 := BufferQueue_pop q1 d.length
            (line ++ p2.1, [], p2.2)

/-- Run a list of queue operations, collecting removed and stored bytes. -/
def runQ : BufferQueue → List QOp → List (List Nat) × List (List Nat) × BufferQueue
  | q, [] => ([], [], q)
  | q, op :: ops =>
    let p := qstep q op
    let rest := runQ p.2.2 ops
    (p.1 :: rest.1, p.2.1 :: rest.2.1, rest.2.2)

/-- Operations of the ring buffer used by the conservation theorem
(the ring buffer has no pop-at-most entry point). -/
inductive ROp where
  | push : List Nat → ROp
  | pop : Int → ROp
  | popLine : ROp
deriving Repr, DecidableEq

/-- `true` for the pop-flavoured operations. -/
def ROp.isPopOp : ROp → Bool
  | .push _ => false
  | _ => true

/-- One operation step of the ring buffer: bytes removed, bytes stored,
next state. -/
def rstep (r : Ringbuf) : ROp → List Nat × List Nat × Ringbuf
  | .push s =>
    match Ringbuf_push r s with
    | (.ok _, r') => ([], s, r')
    | (.error _, r') => ([], [], r')
  | .pop n =>
    match Ringbuf_dopop r n with
    | (.ok v, r') => (v, [], r')
    | (.error _, r') => ([], [], r')
  | .popLine =>
    match Ringbuf_dopopline r with
    | (.ok v, r') => (v, [], r')
    | (.error _, r') => ([], [], r')

/-- Run a list of ring operations, collecting removed and stored bytes. -/
def runR : Ringbuf → List ROp → List (List Nat) × List (List Nat) × Ringbuf
  | r, [] => ([], [], r)
  | r, op :: ops =>
    let p := rstep r op
    let rest := runR p.2.2 ops
    (p.1 :: rest.1, p.2.1 :: rest.2.1, rest.2.2)

/-- A reachable queue state on which `BufferQueue_find_delim` misbehaves:
`BufferQueue` with delimiter `[0,1,2,3]`, pushes `[23,0,1,2]`, `[3]`,
`[4,5,6]`, then `pop(3)`.  Unconsumed contents: `[2,3,4,5,6]`. -/
def badQ : BufferQueue :=
  (BufferQueue_dopop
    (BufferQueue_push (BufferQueue_push (BufferQueue_push
      (BufferQueue_mk (some [0,1,2,3])) [23,0,1,2]) [3]) [4,5,6]) 3).2

/-- Like `badQ` but with a genuine delimiter occurrence later in the
buffer: contents `[2,3,4,5,6,0,1,2,3]`, first occurrence of `[0,1,2,3]`
at offset 5. -/
def badQ1 : BufferQueue :=
  (BufferQueue_dopop
    (BufferQueue_push (BufferQueue_push (BufferQueue_push
      (BufferQueue_mk (some [0,1,2,3])) [23,0,1,2]) [3]) [4,5,6,0,1,2,3]) 3).2

/-- A ring buffer of size 8 with delimiter `[10]` holding `[1,10]`. -/
def ring1 : Ringbuf :=
  (Ringbuf_push (Ringbuf_mk 8 (some [10])) [1,10]).2

/-- The tail-append step shared by both branches of `BufferQueue_push`
(src/qbufmodule.c:141-146), factored out for the proofs below. -/
def pushCore (q : BufferQueue) (s : List Nat) : BufferQueue :=
  { q with buffer := q.buffer.set q.end_idx s,
           end_idx := if q.end_idx + 1 = q.buffer_length then 0 else q.end_idx + 1,
           n_items := q.n_items + 1,
           tot_length := q.tot_length + s.length }

/-- Index of the `j`-th window slot. -/
def wIdx (q : BufferQueue) (j : Nat) : Nat := (q.start_idx + j) % q.buffer_length

/-- The `j`-th window chunk. -/
def wChunk (q : BufferQueue) (j : Nat) : List Nat := q.buffer.getD (wIdx q j) []

/-- Bytes in the first `j` window chunks. -/
def wSum (q : BufferQueue) (j : Nat) : Nat := ((windowChunks q).take j).flatten.length

/-!
## Theorems

The development below first records four concrete misbehaviours of
`BufferQueue_find_delim` and its callers on the reachable states `badQ`
and `badQ1`, then establishes the state invariants and the functional
specifications of the remaining operations.
-/

/-- C2: false on the code.  On the reachable state `badQ` (delimiter
`[0,1,2,3]`, unconsumed contents `[2,3,4,5,6]`) the delimiter does not
occur in the unconsumed byte sequence, so `find_delimiter` must report
"none" (-1); instead `BufferQueue_find_delim` returns -2, because the
straddle scan of the head chunk also matches candidate positions that lie
before `cursor_offset`, i.e. inside already-consumed bytes. -/
theorem c2_find_delim_counterexample :
    specFindFirst (qContents badQ) [0,1,2,3] = none ∧
    qContents badQ = [2,3,4,5,6] ∧
    BufferQueue_find_delim badQ [0,1,2,3] = -2 :=
  ⟨rfl, rfl, rfl⟩

/-- C1: false on the code, for two independent reasons.  On the queue:
state `badQ1` has contents `[2,3,4,5,6,0,1,2,3]` with the configured
delimiter `[0,1,2,3]` occurring at offset 5, so `pop_line` should return
`[2,3,4,5,6]`; instead the phantom find result -2 is fed to
`BufferQueue_pop`, which fails on the negative size (SystemError in C).
On the ring: `ring1` holds `[1,10]` with delimiter `[10]`, and
`Ringbuf_dopopline` returns `[1,10]` — the delimiter is NOT excluded from
the returned bytes. -/
theorem c1_popline_counterexample :
    specFindFirst (qContents badQ1) [0,1,2,3] = some 5 ∧
    badQ1.delim_obj = some [0,1,2,3] ∧
    (BufferQueue_popline badQ1 none).1 = .error .popFail ∧
    rcontents ring1 = [1, 10] ∧ ring1.delimiter = [10] ∧
    (Ringbuf_dopopline ring1).1 = .ok [1, 10] :=
  ⟨rfl, rfl, rfl, rfl, rfl, rfl⟩

/-- C6: false on the code.  First, a yielded line keeps its delimiter
(`BufferQueue_iternext` pops `offset + delimiter length` bytes and returns
them all), while `pop_line` strips it, so the yielded value never equals
`pop_line`'s on a successful step with a nonempty delimiter.  Second, on
`badQ` the delimiter does not occur in the contents, so iteration should
stop; instead the phantom find result -2 makes `iternext` yield `[2,3]`
(it pops `-2 + 4 = 2` bytes) whereas `pop_line` on the same state fails
with a SystemError — the two also mutate the queue differently. -/
theorem c6_iternext_counterexample :
    badQ.delim_obj = some [0,1,2,3] ∧
    specFindFirst (qContents badQ) [0,1,2,3] = none ∧
    (BufferQueue_iternext badQ).1 = .ok [2,3] ∧
    (BufferQueue_popline badQ none).1 = .error .popFail :=
  ⟨rfl, rfl, rfl, rfl⟩

/-- C10: false on the code for the segmented queue.  On `badQ` the
configured delimiter `[0,1,2,3]` does not occur in the unconsumed
contents `[2,3,4,5,6]`, so `pop_lines` should return an empty list and
leave the queue unchanged; instead the phantom find result -2 makes the
first inner `pop_line` fail on a negative pop size, and
`BufferQueue_dopoplines` propagates the failure. -/
theorem c10_poplines_counterexample :
    badQ.delim_obj = some [0,1,2,3] ∧
    specFindFirst (qContents badQ) [0,1,2,3] = none ∧
    BufferQueue_poplines badQ none = (.error .popFail, badQ) :=
  ⟨rfl, rfl, rfl⟩

/-!
### Basic window lemmas for the segmented queue
-/

theorem windowChunks_length (q : BufferQueue) : (windowChunks q).length = q.n_items := by
  simp [windowChunks]

theorem windowChunks_tot_irrel (q : BufferQueue) (t : Nat) :
    windowChunks { q with tot_length := t } = windowChunks q := rfl

theorem qContents_tot_irrel (q : BufferQueue) (t : Nat) :
    qContents { q with tot_length := t } = qContents q := rfl

theorem WInv_tot_irrel (q : BufferQueue) (t : Nat) :
    WInv { q with tot_length := t } ↔ WInv q := Iff.rfl

@[simp] theorem advance_start_buffer (q : BufferQueue) :
    (BufferQueue_advance_start q).buffer = q.buffer := rfl

@[simp] theorem advance_start_end_idx (q : BufferQueue) :
    (BufferQueue_advance_start q).end_idx = q.end_idx := rfl

@[simp] theorem advance_start_buffer_length (q : BufferQueue) :
    (BufferQueue_advance_start q).buffer_length = q.buffer_length := rfl

@[simp] theorem advance_start_n_items (q : BufferQueue) :
    (BufferQueue_advance_start q).n_items = q.n_items - 1 := rfl

@[simp] theorem advance_start_cur_offset (q : BufferQueue) :
    (BufferQueue_advance_start q).cur_offset = 0 := rfl

@[simp] theorem advance_start_tot_length (q : BufferQueue) :
    (BufferQueue_advance_start q).tot_length = q.tot_length := rfl

@[simp] theorem advance_start_delim_obj (q : BufferQueue) :
    (BufferQueue_advance_start q).delim_obj = q.delim_obj := rfl

theorem advance_start_start_idx (q : BufferQueue) :
    (BufferQueue_advance_start q).start_idx =
      if q.start_idx + 1 = q.buffer_length then 0 else q.start_idx + 1 := rfl

theorem advance_start_start (q : BufferQueue) (hs : q.start_idx < q.buffer_length) :
    (BufferQueue_advance_start q).start_idx = (q.start_idx + 1) % q.buffer_length := by
  rw [advance_start_start_idx]
  by_cases h : q.start_idx + 1 = q.buffer_length
  · rw [if_pos h, h, Nat.mod_self]
  · rw [if_neg h, Nat.mod_eq_of_lt (by omega)]

theorem windowChunks_advance (q : BufferQueue) (hs : q.start_idx < q.buffer_length)
    (hn : 0 < q.n_items) :
    windowChunks q =
      q.buffer.getD q.start_idx [] :: windowChunks (BufferQueue_advance_start q) := by
  have hn' : q.n_items = (q.n_items - 1) + 1 := by omega
  rw [windowChunks, windowChunks]
  simp only [advance_start_buffer, advance_start_buffer_length, advance_start_n_items]
  conv_lhs => rw [hn']
  rw [List.range_succ_eq_map, List.map_cons, List.map_map]
  congr 1
  · rw [Nat.add_zero, Nat.mod_eq_of_lt hs]
  · apply congrArg (fun f => List.map f (List.range (q.n_items - 1)))
    funext i
    show q.buffer.getD ((q.start_idx + (i + 1)) % q.buffer_length) [] = _
    rw [advance_start_start q hs, Nat.mod_add_mod]
    congr 2
    omega

theorem head_mem_windowChunks (q : BufferQueue) (hs : q.start_idx < q.buffer_length)
    (hn : 0 < q.n_items) :
    q.buffer.getD q.start_idx [] ∈ windowChunks q := by
  rw [windowChunks_advance q hs hn]
  exact List.mem_cons_self _ _

theorem head_length_pos (q : BufferQueue) (h : WInv q) (hn : 0 < q.n_items) :
    0 < (q.buffer.getD q.start_idx []).length := by
  have hc := h.2.2.2.2.2.2.2
  rw [if_neg (by omega)] at hc
  omega

theorem qContents_decomp (q : BufferQueue) (h : WInv q) (hn : 0 < q.n_items) :
    qContents q = (q.buffer.getD q.start_idx []).drop q.cur_offset ++
      qContents (BufferQueue_advance_start q) := by
  obtain ⟨hbl, hbuf, hs, he, hnbl, hidx, hchunks, hcur⟩ := h
  rw [if_neg (by omega)] at hcur
  rw [qContents, windowChunks_advance q hs hn, List.flatten_cons,
    List.drop_append_of_le_length (by omega)]
  rw [qContents]
  simp

theorem n_items_pos_of_contents (q : BufferQueue) (h : 0 < (qContents q).length) :
    0 < q.n_items := by
  by_contra h0
  have hz : q.n_items = 0 := by omega
  rw [qContents, windowChunks] at h
  simp [hz] at h

theorem WInv_advance_start (q : BufferQueue) (h : WInv q) (hn : 0 < q.n_items) :
    WInv (BufferQueue_advance_start q) := by
  have hchunks' : ∀ c ∈ windowChunks (BufferQueue_advance_start q), c ≠ [] := by
    intro c hc
    exact h.2.2.2.2.2.2.1 c
      (by rw [windowChunks_advance q h.2.2.1 hn]; exact List.mem_cons_of_mem _ hc)
  obtain ⟨hbl, hbuf, hs, he, hnbl, hidx, hchunks, hcur⟩ := h
  refine ⟨hbl, by simpa using hbuf, ?_, by simpa using he, by simp; omega, ?_, hchunks', ?_⟩
  · rw [advance_start_start q hs]
    exact Nat.mod_lt _ hbl
  · rw [advance_start_end_idx, advance_start_buffer_length, advance_start_n_items,
      advance_start_start q hs, Nat.mod_add_mod, hidx]
    congr 1
    omega
  · rw [advance_start_cur_offset, advance_start_n_items]
    by_cases h0 : q.n_items - 1 = 0
    · rw [if_pos h0]
    · rw [if_neg h0]
      have hmem : (BufferQueue_advance_start q).buffer.getD
          (BufferQueue_advance_start q).start_idx [] ∈
          windowChunks (BufferQueue_advance_start q) := by
        apply head_mem_windowChunks
        · rw [advance_start_start q hs, advance_start_buffer_length]
          exact Nat.mod_lt _ hbl
        · simp
          omega
      have := hchunks' _ hmem
      have hne := List.length_pos.mpr this
      simpa using hne

/-!
### Specification of `BufferQueue_pop`
-/

theorem popLoop_spec : ∀ (fuel : Nat) (q : BufferQueue) (rem : Nat) (acc : List Nat),
    WInv q → rem ≤ (qContents q).length → rem ≤ fuel →
    (BufferQueue_popLoop fuel q rem acc).1 = acc ++ (qContents q).take rem ∧
    WInv (BufferQueue_popLoop fuel q rem acc).2 ∧
    qContents (BufferQueue_popLoop fuel q rem acc).2 = (qContents q).drop rem ∧
    (BufferQueue_popLoop fuel q rem acc).2.buffer_length = q.buffer_length ∧
    (BufferQueue_popLoop fuel q rem acc).2.end_idx = q.end_idx ∧
    (BufferQueue_popLoop fuel q rem acc).2.tot_length = q.tot_length ∧
    (BufferQueue_popLoop fuel q rem acc).2.delim_obj = q.delim_obj := by
  intro fuel
  induction fuel with
  | zero =>
    intro q rem acc hW hrem hfuel
    have h0 : rem = 0 := Nat.le_zero.mp hfuel
    subst h0
    exact ⟨by rw [BufferQueue_popLoop, List.take_zero, List.append_nil], hW,
      by rw [BufferQueue_popLoop, List.drop_zero], rfl, rfl, rfl, rfl⟩
  | succ fuel ih =>
    intro q rem acc hW hrem hfuel
    by_cases h0 : rem = 0
    · subst h0
      rw [BufferQueue_popLoop, if_pos rfl]
      exact ⟨by rw [List.take_zero, List.append_nil], hW,
        by rw [List.drop_zero], rfl, rfl, rfl, rfl⟩
    · have hn : 0 < q.n_items := n_items_pos_of_contents q (by omega)
      have hcur : q.cur_offset < (q.buffer.getD q.start_idx []).length := by
        have := hW.2.2.2.2.2.2.2
        rw [if_neg (by omega)] at this
        exact this
      have hdec := qContents_decomp q hW hn
      have hdroplen : ((q.buffer.getD q.start_idx []).drop q.cur_offset).length =
          (q.buffer.getD q.start_idx []).length - q.cur_offset := by
        rw [List.length_drop]
      have hlen : (qContents q).length =
          ((q.buffer.getD q.start_idx []).length - q.cur_offset) +
            (qContents (BufferQueue_advance_start q)).length := by
        rw [hdec, List.length_append, hdroplen]
      rw [BufferQueue_popLoop, if_neg h0]
      by_cases hc : (q.buffer.getD q.start_idx []).length ≤ rem + q.cur_offset
      · rw [if_pos hc]
        have hW' := WInv_advance_start q hW hn
        obtain ⟨ihv, ihW, ihc, ihbl, ihe, iht, ihd⟩ :=
          ih (BufferQueue_advance_start q)
            (rem - ((q.buffer.getD q.start_idx []).length - q.cur_offset))
            (acc ++ (q.buffer.getD q.start_idx []).drop q.cur_offset)
            hW' (by omega) (by omega)
        have hale : (List.drop q.cur_offset (q.buffer.getD q.start_idx [])).length
            ≤ rem := by
          rw [hdroplen]
          omega
        refine ⟨?_, ihW, ?_, ihbl.trans (advance_start_buffer_length q),
          ihe.trans (advance_start_end_idx q), iht.trans (advance_start_tot_length q),
          ihd.trans (advance_start_delim_obj q)⟩
        · rw [ihv, hdec, List.append_assoc]
          congr 1
          rw [List.take_append_eq_append_take,
            List.take_of_length_le hale, hdroplen]
        · rw [ihc, hdec, List.drop_append_eq_append_drop,
            List.drop_eq_nil_of_le hale, List.nil_append, hdroplen]
      · rw [if_neg hc]
        have hwc : windowChunks { q with cur_offset := q.cur_offset + rem } =
            windowChunks q := rfl
        refine ⟨?_, ?_, ?_, rfl, rfl, rfl, rfl⟩
        · show acc ++ (_ : List Nat).take rem = _
          rw [hdec, List.take_append_of_le_length (by omega)]
        · obtain ⟨hbl, hbuf, hs, he, hnbl, hidx, hchunks, _⟩ := hW
          refine ⟨hbl, hbuf, hs, he, hnbl, hidx, ?_, ?_⟩
          · rw [hwc]; exact hchunks
          · show (if q.n_items = 0 then q.cur_offset + rem = 0
              else q.cur_offset + rem < (q.buffer.getD q.start_idx []).length)
            rw [if_neg (by omega)]
            omega
        · show (windowChunks q).flatten.drop (q.cur_offset + rem) = _
          rw [qContents, ← List.drop_drop]

theorem BufferQueue_pop_spec (q : BufferQueue) (n : Nat) (h : QInv q) (hn : n ≤ q.tot_length) :
    (BufferQueue_pop q n).1 = (qContents q).take n ∧
    QInv (BufferQueue_pop q n).2 ∧
    qContents (BufferQueue_pop q n).2 = (qContents q).drop n ∧
    (BufferQueue_pop q n).2.tot_length = q.tot_length - n ∧
    (BufferQueue_pop q n).2.delim_obj = q.delim_obj := by
  obtain ⟨hW, htot⟩ := h
  by_cases h0 : n = 0
  · subst h0
    refine ⟨rfl, ⟨hW, htot⟩, ?_, ?_, rfl⟩
    · show qContents q = List.drop 0 (qContents q)
      rw [List.drop_zero]
    · show q.tot_length = q.tot_length - 0
      rw [Nat.sub_zero]
  · have hc0 : 0 < (qContents q).length :=
      htot ▸ Nat.lt_of_lt_of_le (Nat.pos_of_ne_zero h0) hn
    have hnpos : 0 < q.n_items := n_items_pos_of_contents q hc0
    have hcur : q.cur_offset < (q.buffer.getD q.start_idx []).length := by
      have := hW.2.2.2.2.2.2.2
      rw [if_neg (Nat.pos_iff_ne_zero.mp hnpos)] at this
      exact this
    have hdec := qContents_decomp q hW hnpos
    have hW' := WInv_advance_start q hW hnpos
    simp only [BufferQueue_pop, if_neg h0]
    split_ifs with hA hB
    · have hvalue : (qContents q).take n = q.buffer.getD q.start_idx [] := by
        rw [hdec, hA.1, List.drop_zero, ← hA.2, List.take_left]
      have hcontents : qContents (BufferQueue_advance_start q) = (qContents q).drop n := by
        rw [hdec, hA.1, List.drop_zero, ← hA.2, List.drop_left]
      refine ⟨hvalue.symm, ⟨hW', ?_⟩, hcontents, by trivial, by trivial⟩
      show q.tot_length - n = (qContents (BufferQueue_advance_start q)).length
      rw [hcontents, List.length_drop, ← htot]
    · have halen : (List.drop q.cur_offset (q.buffer.getD q.start_idx [])).length = n := by
        rw [List.length_drop]
        omega
      have hvalue : (qContents q).take n =
          ((q.buffer.getD q.start_idx []).drop q.cur_offset).take n := by
        rw [hdec, List.take_append_of_le_length (Nat.le_of_eq halen.symm)]
      have hcontents : qContents (BufferQueue_advance_start q) = (qContents q).drop n := by
        rw [hdec, ← halen, List.drop_left]
      refine ⟨hvalue.symm, ⟨hW', ?_⟩, hcontents, by trivial, by trivial⟩
      show q.tot_length - n = (qContents (BufferQueue_advance_start q)).length
      rw [hcontents, List.length_drop, ← htot]
    · obtain ⟨pv, pW, pc, pbl, pe, pt, pd⟩ := popLoop_spec n q n [] hW
        (by rw [← htot]; exact hn) le_rfl
      refine ⟨by rw [pv, List.nil_append], ⟨pW, ?_⟩, pc, by trivial, pd⟩
      show q.tot_length - n = (qContents (BufferQueue_popLoop n q n []).2).length
      rw [pc, List.length_drop, ← htot]

/-!
### Specification of `BufferQueue_push` (including growth)
-/

theorem getD_append_left {α : Type} (l1 l2 : List α) (i : Nat) (d : α) (h : i < l1.length) :
    (l1 ++ l2).getD i d = l1.getD i d := by
  rw [List.getD_eq_getElem?_getD, List.getD_eq_getElem?_getD, List.getElem?_append, if_pos h]

theorem getD_append_right {α : Type} (l1 l2 : List α) (i : Nat) (d : α) (h : l1.length ≤ i) :
    (l1 ++ l2).getD i d = l2.getD (i - l1.length) d := by
  rw [List.getD_eq_getElem?_getD, List.getD_eq_getElem?_getD, List.getElem?_append_right h]

theorem getD_drop {α : Type} (l : List α) (s i : Nat) (d : α) :
    (l.drop s).getD i d = l.getD (s + i) d := by
  rw [List.getD_eq_getElem?_getD, List.getD_eq_getElem?_getD, List.getElem?_drop]

theorem getD_take {α : Type} (l : List α) (t i : Nat) (d : α) (h : i < t) :
    (l.take t).getD i d = l.getD i d := by
  rw [List.getD_eq_getElem?_getD, List.getD_eq_getElem?_getD, List.getElem?_take, if_pos h]

theorem getD_set_ne {α : Type} (l : List α) (i j : Nat) (a : α) (d : α) (h : i ≠ j) :
    (l.set i a).getD j d = l.getD j d := by
  rw [List.getD_eq_getElem?_getD, List.getD_eq_getElem?_getD, List.getElem?_set_ne h]

theorem getD_set_self {α : Type} (l : List α) (i : Nat) (a : α) (d : α) (h : i < l.length) :
    (l.set i a).getD i d = a := by
  rw [List.getD_eq_getElem?_getD, List.getElem?_set_self h]
  rfl

theorem window_idx_ne_end (q : BufferQueue) (hbl : 0 < q.buffer_length)
    (hn : q.n_items < q.buffer_length) (i : Nat) (hi : i < q.n_items) :
    (q.start_idx + i) % q.buffer_length ≠ (q.start_idx + q.n_items) % q.buffer_length := by
  intro hmod
  have h2 : i ≡ q.n_items [MOD q.buffer_length] :=
    (Nat.ModEq.add_left_cancel' q.start_idx hmod)
  have h3 : q.buffer_length ∣ (q.n_items - i) := (Nat.modEq_iff_dvd' (by omega)).mp h2
  have h4 : q.buffer_length ≤ q.n_items - i := Nat.le_of_dvd (by omega) h3
  omega

theorem range_map_snoc (n : Nat) (f : Nat → List Nat) :
    (List.range (n + 1)).map f = (List.range n).map f ++ [f n] := by
  rw [List.range_succ, List.map_append, List.map_cons, List.map_nil]

theorem grow_buffer (q : BufferQueue) :
    (BufferQueue_grow q).buffer = List.replicate q.buffer_length [] ++
      (if q.start_idx = 0 ∧ q.end_idx = 0 then q.buffer
       else q.buffer.drop q.start_idx ++ q.buffer.take q.end_idx) := rfl

@[simp] theorem grow_start (q : BufferQueue) :
    (BufferQueue_grow q).start_idx = q.buffer_length := rfl

@[simp] theorem grow_end (q : BufferQueue) : (BufferQueue_grow q).end_idx = 0 := rfl

@[simp] theorem grow_bl (q : BufferQueue) :
    (BufferQueue_grow q).buffer_length = 2 * q.buffer_length := rfl

@[simp] theorem grow_n (q : BufferQueue) : (BufferQueue_grow q).n_items = q.n_items := rfl

@[simp] theorem grow_cur (q : BufferQueue) :
    (BufferQueue_grow q).cur_offset = q.cur_offset := rfl

@[simp] theorem grow_tot (q : BufferQueue) :
    (BufferQueue_grow q).tot_length = q.tot_length := rfl

@[simp] theorem grow_delim (q : BufferQueue) :
    (BufferQueue_grow q).delim_obj = q.delim_obj := rfl

theorem end_eq_start_of_full (q : BufferQueue) (hW : WInv q)
    (hfull : q.n_items = q.buffer_length) : q.end_idx = q.start_idx := by
  obtain ⟨hbl, hbuf, hs, he, hnbl, hidx, hchunks, hcur⟩ := hW
  rw [hidx, hfull, Nat.add_mod_right]
  exact Nat.mod_eq_of_lt hs

theorem grow_windowChunks (q : BufferQueue) (hW : WInv q)
    (hfull : q.n_items = q.buffer_length) :
    windowChunks (BufferQueue_grow q) = windowChunks q := by
  have hes := end_eq_start_of_full q hW hfull
  obtain ⟨hbl, hbuf, hs, he, hnbl, hidx, hchunks, hcur⟩ := hW
  simp only [windowChunks, grow_buffer, grow_start, grow_bl, grow_n]
  apply List.map_congr_left
  intro i hi
  rw [List.mem_range] at hi
  have hi' : i < q.buffer_length := by omega
  rw [Nat.mod_eq_of_lt (by omega),
    getD_append_right _ _ _ _ (by rw [List.length_replicate]; omega),
    List.length_replicate, Nat.add_sub_cancel_left]
  by_cases hz : q.start_idx = 0 ∧ q.end_idx = 0
  · rw [if_pos hz, hz.1, Nat.zero_add, Nat.mod_eq_of_lt hi']
  · rw [if_neg hz]
    obtain ⟨sc, hsc⟩ : ∃ sc, q.start_idx + sc = q.buffer_length :=
      ⟨q.buffer_length - q.start_idx, Nat.add_sub_cancel' (Nat.le_of_lt hs)⟩
    have hscs : q.buffer_length - q.start_idx = sc := by omega
    have hdl : (q.buffer.drop q.start_idx).length = sc := by
      rw [List.length_drop, hbuf, hscs]
    by_cases hlt : i < sc
    · rw [getD_append_left _ _ _ _ (by rw [hdl]; exact hlt), getD_drop]
      congr 1
      rw [Nat.mod_eq_of_lt (by omega)]
    · obtain ⟨c, rfl⟩ : ∃ c, i = sc + c :=
        ⟨i - sc, (Nat.add_sub_cancel' (Nat.le_of_not_lt hlt)).symm⟩
      rw [getD_append_right _ _ _ _ (by rw [hdl]; exact Nat.le_add_right sc c),
        hdl, hes, Nat.add_sub_cancel_left, getD_take _ _ _ _ (by omega)]
      congr 1
      rw [← Nat.add_assoc, hsc, Nat.add_mod_left, Nat.mod_eq_of_lt (by omega)]

theorem grow_head (q : BufferQueue) (hW : WInv q)
    (hfull : q.n_items = q.buffer_length) :
    (BufferQueue_grow q).buffer.getD (BufferQueue_grow q).start_idx [] =
      q.buffer.getD q.start_idx [] := by
  have hwin := grow_windowChunks q hW hfull
  have hn0 : 0 < q.n_items := by
    have := hW.1
    omega
  have h1 := windowChunks_advance (BufferQueue_grow q)
    (by rw [grow_start, grow_bl]; have := hW.1; omega) (by rw [grow_n]; exact hn0)
  have h2 := windowChunks_advance q hW.2.2.1 hn0
  rw [h1, h2] at hwin
  exact (List.cons.injEq _ _ _ _).mp hwin |>.1

theorem grow_qContents (q : BufferQueue) (hW : WInv q)
    (hfull : q.n_items = q.buffer_length) :
    qContents (BufferQueue_grow q) = qContents q := by
  simp only [qContents, grow_cur, grow_windowChunks q hW hfull]

theorem grow_WInv (q : BufferQueue) (hW : WInv q)
    (hfull : q.n_items = q.buffer_length) : WInv (BufferQueue_grow q) := by
  have hwin := grow_windowChunks q hW hfull
  have hes := end_eq_start_of_full q hW hfull
  have hhead := grow_head q hW hfull
  obtain ⟨hbl, hbuf, hs, he, hnbl, hidx, hchunks, hcur⟩ := hW
  have hupper : (if q.start_idx = 0 ∧ q.end_idx = 0 then q.buffer
      else q.buffer.drop q.start_idx ++ q.buffer.take q.end_idx).length =
        q.buffer_length := by
    by_cases hz : q.start_idx = 0 ∧ q.end_idx = 0
    · rw [if_pos hz]; exact hbuf
    · rw [if_neg hz, List.length_append, List.length_drop, List.length_take, hbuf,
        Nat.min_eq_left (Nat.le_of_lt he), hes]
      exact Nat.sub_add_cancel (Nat.le_of_lt hs)
  refine ⟨by rw [grow_bl]; omega, ?_, ?_, ?_, ?_, ?_, ?_, ?_⟩
  · rw [grow_buffer, List.length_append, List.length_replicate, hupper, grow_bl]
    omega
  · rw [grow_start, grow_bl]; omega
  · rw [grow_end, grow_bl]; omega
  · rw [grow_n, grow_bl]; omega
  · rw [grow_end, grow_start, grow_n, grow_bl, hfull]
    have h2 : q.buffer_length + q.buffer_length = 2 * q.buffer_length := by omega
    rw [h2, Nat.mod_self]
  · intro c hc
    rw [hwin] at hc
    exact hchunks c hc
  · rw [grow_n, grow_cur, hhead]
    exact hcur

theorem push_eq (q : BufferQueue) (s : List Nat) (hz : ¬ s.length = 0) :
    BufferQueue_push q s =
      pushCore (if q.n_items = q.buffer_length then BufferQueue_grow q else q) s := by
  rw [BufferQueue_push, if_neg hz]
  rfl

@[simp] theorem pushCore_buffer (q : BufferQueue) (s : List Nat) :
    (pushCore q s).buffer = q.buffer.set q.end_idx s := rfl

@[simp] theorem pushCore_start (q : BufferQueue) (s : List Nat) :
    (pushCore q s).start_idx = q.start_idx := rfl

theorem pushCore_end (q : BufferQueue) (s : List Nat) :
    (pushCore q s).end_idx = if q.end_idx + 1 = q.buffer_length then 0 else q.end_idx + 1 := rfl

@[simp] theorem pushCore_bl (q : BufferQueue) (s : List Nat) :
    (pushCore q s).buffer_length = q.buffer_length := rfl

@[simp] theorem pushCore_n (q : BufferQueue) (s : List Nat) :
    (pushCore q s).n_items = q.n_items + 1 := rfl

@[simp] theorem pushCore_cur (q : BufferQueue) (s : List Nat) :
    (pushCore q s).cur_offset = q.cur_offset := rfl

@[simp] theorem pushCore_tot (q : BufferQueue) (s : List Nat) :
    (pushCore q s).tot_length = q.tot_length + s.length := rfl

@[simp] theorem pushCore_delim (q : BufferQueue) (s : List Nat) :
    (pushCore q s).delim_obj = q.delim_obj := rfl

theorem cur_le_flatten (q : BufferQueue) (hW : WInv q) :
    q.cur_offset ≤ (windowChunks q).flatten.length := by
  by_cases hn : q.n_items = 0
  · have := hW.2.2.2.2.2.2.2
    rw [if_pos hn] at this
    omega
  · have hn0 : 0 < q.n_items := by omega
    have hcur : q.cur_offset < (q.buffer.getD q.start_idx []).length := by
      have := hW.2.2.2.2.2.2.2
      rw [if_neg hn] at this
      exact this
    rw [windowChunks_advance q hW.2.2.1 hn0, List.flatten_cons, List.length_append]
    omega

theorem pushCore_windowChunks (q : BufferQueue) (s : List Nat) (hW : WInv q)
    (hn : q.n_items < q.buffer_length) :
    windowChunks (pushCore q s) = windowChunks q ++ [s] := by
  obtain ⟨hbl, hbuf, hs, he, hnbl, hidx, hchunks, hcur⟩ := hW
  simp only [windowChunks, pushCore_buffer, pushCore_start, pushCore_bl, pushCore_n]
  rw [range_map_snoc]
  congr 1
  · apply List.map_congr_left
    intro i hi
    rw [List.mem_range] at hi
    apply getD_set_ne
    rw [hidx]
    exact (window_idx_ne_end q hbl hn i hi).symm
  · rw [← hidx]
    rw [getD_set_self _ _ _ _ (by rw [hbuf]; exact he)]

theorem pushCore_qContents (q : BufferQueue) (s : List Nat) (hW : WInv q)
    (hn : q.n_items < q.buffer_length) :
    qContents (pushCore q s) = qContents q ++ s := by
  rw [qContents, pushCore_windowChunks q s hW hn, List.flatten_append, List.flatten_cons,
    List.flatten_nil, List.append_nil]
  show (_ ++ s).drop q.cur_offset = _
  rw [List.drop_append_of_le_length (cur_le_flatten q hW)]
  rfl

theorem pushCore_WInv (q : BufferQueue) (s : List Nat) (hW : WInv q)
    (hn : q.n_items < q.buffer_length) (hs0 : s ≠ []) :
    WInv (pushCore q s) := by
  have hwin := pushCore_windowChunks q s hW hn
  obtain ⟨hbl, hbuf, hs, he, hnbl, hidx, hchunks, hcur⟩ := hW
  refine ⟨hbl, ?_, hs, ?_, ?_, ?_, ?_, ?_⟩
  · rw [pushCore_buffer, List.length_set, pushCore_bl]
    exact hbuf
  · rw [pushCore_end, pushCore_bl]
    split <;> omega
  · rw [pushCore_n, pushCore_bl]
    omega
  · rw [pushCore_end, pushCore_start, pushCore_n, pushCore_bl]
    have h1 : (if q.end_idx + 1 = q.buffer_length then 0 else q.end_idx + 1) =
        (q.end_idx + 1) % q.buffer_length := by
      split
      · rename_i hh
        rw [hh, Nat.mod_self]
      · rw [Nat.mod_eq_of_lt (by omega)]
    rw [h1, hidx, Nat.mod_add_mod]
    congr 1
  · intro c hc
    rw [hwin] at hc
    rcases List.mem_append.mp hc with hc | hc
    · exact hchunks c hc
    · rw [List.mem_singleton.mp hc]
      exact hs0
  · rw [pushCore_n, pushCore_cur, if_neg (by omega), pushCore_buffer, pushCore_start]
    by_cases hn0 : q.n_items = 0
    · have hse : q.start_idx = q.end_idx := by
        rw [hidx, hn0, Nat.add_zero, Nat.mod_eq_of_lt hs]
      rw [hse, getD_set_self _ _ _ _ (by rw [hbuf]; rw [← hse]; exact hs)]
      rw [if_pos hn0] at hcur
      rw [hcur]
      exact List.length_pos.mpr hs0
    · have hne : q.end_idx ≠ q.start_idx := by
        rw [hidx]
        have := window_idx_ne_end q hbl hn 0 (by omega)
        rw [Nat.add_zero, Nat.mod_eq_of_lt hs] at this
        exact fun hh => this hh.symm
      rw [getD_set_ne _ _ _ _ _ hne]
      rw [if_neg hn0] at hcur
      exact hcur

theorem BufferQueue_push_spec (q : BufferQueue) (s : List Nat) (h : QInv q) :
    QInv (BufferQueue_push q s) ∧
    qContents (BufferQueue_push q s) = qContents q ++ s ∧
    (BufferQueue_push q s).tot_length = q.tot_length + s.length ∧
    (BufferQueue_push q s).delim_obj = q.delim_obj := by
  obtain ⟨hW, htot⟩ := h
  by_cases hz : s.length = 0
  · have hsz : s = [] := List.length_eq_zero.mp hz
    subst hsz
    have hpe : BufferQueue_push q [] = q := rfl
    rw [hpe]
    exact ⟨⟨hW, htot⟩, by simp, by simp, rfl⟩
  · have hs0 : s ≠ [] := fun hh => hz (by rw [hh]; rfl)
    rw [push_eq q s hz]
    by_cases hfull : q.n_items = q.buffer_length
    · rw [if_pos hfull]
      have hW1 := grow_WInv q hW hfull
      have hn1 : (BufferQueue_grow q).n_items < (BufferQueue_grow q).buffer_length := by
        rw [grow_n, grow_bl]
        have := hW.1
        omega
      have hc1 := grow_qContents q hW hfull
      refine ⟨⟨pushCore_WInv _ s hW1 hn1 hs0, ?_⟩,
        by rw [pushCore_qContents _ s hW1 hn1, hc1], by rw [pushCore_tot, grow_tot],
        by rw [pushCore_delim, grow_delim]⟩
      rw [pushCore_tot, grow_tot, pushCore_qContents _ s hW1 hn1, hc1,
        List.length_append, htot]
    · rw [if_neg hfull]
      have hn1 : q.n_items < q.buffer_length := by
        have := hW.2.2.2.2.1
        omega
      refine ⟨⟨pushCore_WInv q s hW hn1 hs0, ?_⟩,
        pushCore_qContents q s hW hn1, pushCore_tot q s, pushCore_delim q s⟩
      rw [pushCore_tot, pushCore_qContents q s hW hn1, List.length_append, htot]

/-!
### Bounds on `BufferQueue_find_delim`

`find_delim` can return phantom negative offsets (see
`c2_find_delim_counterexample`), but every non-(-1) return value `r`
satisfies `1 ≤ r + d.length ≤ tot_length`: the straddle scan checks
`pos + offset ≤ tot_length` before matching, and a direct find stays
inside the current chunk.  These bounds are what `popline`, `poplines`
and `iternext` need in order to never pop more than `tot_length` bytes.
-/

theorem wSum_zero (q : BufferQueue) : wSum q 0 = 0 := rfl

theorem wSum_succ (q : BufferQueue) (j : Nat) (hj : j < q.n_items) :
    wSum q (j + 1) = wSum q j + (wChunk q j).length := by
  rw [wSum, wSum, List.take_succ, List.flatten_append, List.length_append]
  congr 1
  have hj' : j < (windowChunks q).length := by rw [windowChunks_length]; exact hj
  rw [List.getElem?_eq_getElem hj']
  simp [windowChunks, wChunk, wIdx]

theorem wSum_le (q : BufferQueue) (j : Nat) :
    wSum q j ≤ (windowChunks q).flatten.length := by
  conv_rhs => rw [← List.take_append_drop j (windowChunks q)]
  rw [List.flatten_append, List.length_append, wSum]
  omega

theorem wIdx_succ (q : BufferQueue) (hbl : 0 < q.buffer_length) (j : Nat) :
    (if wIdx q j + 1 = q.buffer_length then 0 else wIdx q j + 1) = wIdx q (j + 1) := by
  have hstep : (q.start_idx + (j + 1)) % q.buffer_length =
      ((q.start_idx + j) % q.buffer_length + 1) % q.buffer_length := by
    rw [Nat.mod_add_mod, ← Nat.add_assoc]
  have h1 : (q.start_idx + j) % q.buffer_length < q.buffer_length := Nat.mod_lt _ hbl
  by_cases hh : wIdx q j + 1 = q.buffer_length
  · rw [if_pos hh, wIdx, hstep]
    rw [wIdx] at hh
    rw [hh, Nat.mod_self]
  · rw [if_neg hh, wIdx, wIdx, hstep]
    rw [wIdx] at hh
    symm
    exact Nat.mod_eq_of_lt (by omega)

theorem wIdx_eq_end_iff (q : BufferQueue) (hW : WInv q) (k : Nat)
    (hk1 : 1 ≤ k) (hk2 : k ≤ q.n_items) :
    wIdx q k = q.end_idx ↔ k = q.n_items := by
  obtain ⟨hbl, hbuf, hs, he, hnbl, hidx, hchunks, hcur⟩ := hW
  constructor
  · intro hh
    rw [hidx] at hh
    have h2 : k ≡ q.n_items [MOD q.buffer_length] :=
      Nat.ModEq.add_left_cancel' q.start_idx hh
    have h3 : q.buffer_length ∣ (q.n_items - k) := (Nat.modEq_iff_dvd' (by omega)).mp h2
    rcases Nat.eq_zero_or_pos (q.n_items - k) with h4 | h4
    · omega
    · have := Nat.le_of_dvd h4 h3
      omega
  · intro hh
    rw [hh, hidx, wIdx]

theorem pyFind_bound (s sub : List Nat) (from_ : Nat) :
    pyFind s sub from_ = -1 ∨
    ∃ i : Nat, pyFind s sub from_ = (i : Int) ∧ from_ ≤ i ∧ i + sub.length ≤ s.length := by
  rw [pyFind]
  cases hf : (List.range (s.length + 1)).find? (fun i =>
      decide (from_ ≤ i) && decide (i + sub.length ≤ s.length) &&
      decide ((s.drop i).take sub.length = sub)) with
  | none => exact Or.inl rfl
  | some i =>
    right
    have hp := List.find?_some hf
    simp only [Bool.and_eq_true, decide_eq_true_eq] at hp
    exact ⟨i, rfl, hp.1.1, hp.1.2⟩

theorem straddleGo_bound (q : BufferQueue) (d cur : List Nat) (sidx pos : Nat) :
    ∀ fuel offset (v : Int), 1 ≤ offset →
      BufferQueue_straddleGo q d cur sidx pos fuel offset = some v →
      1 ≤ v + d.length ∧ v + d.length ≤ (q.tot_length : Int) := by
  intro fuel
  induction fuel with
  | zero =>
    intro offset v h1 h2
    rw [BufferQueue_straddleGo] at h2
    exact absurd h2 (by simp)
  | succ fuel ih =>
    intro offset v h1 h2
    rw [BufferQueue_straddleGo] at h2
    by_cases hlen : d.length ≤ offset
    · rw [if_pos hlen] at h2
      exact absurd h2 (by simp)
    · rw [if_neg hlen] at h2
      by_cases htot2 : q.tot_length < pos + offset
      · rw [if_pos htot2] at h2
        exact absurd h2 (by simp)
      · rw [if_neg htot2] at h2
        by_cases hcmp : BufferQueue_splitCompare q d cur sidx
            ((cur.length : Int) - d.length + offset) = true
        · rw [if_pos hcmp] at h2
          have hv : v = (pos : Int) - d.length + offset := (Option.some.inj h2).symm
          subst hv
          refine ⟨by omega, by omega⟩
        · rw [if_neg hcmp] at h2
          exact ih (offset + 1) v (by omega) h2

theorem findLoop_bound (q : BufferQueue) (d : List Nat) (hW : WInv q)
    (htot : q.tot_length = (qContents q).length) (hd : d ≠ []) :
    ∀ (fuel j cidx pos : Nat) (r : Int),
      j < q.n_items →
      cidx ≤ (wChunk q j).length →
      pos + q.cur_offset = wSum q j + cidx →
      BufferQueue_findLoop q d fuel (wIdx q j) cidx pos = r →
      r ≠ -1 →
      1 ≤ r + d.length ∧ r + d.length ≤ (q.tot_length : Int) := by
  have hdl : 0 < d.length := List.length_pos.mpr hd
  have hD := cur_le_flatten q hW
  have hC : q.tot_length + q.cur_offset = (windowChunks q).flatten.length := by
    rw [htot, qContents, List.length_drop]
    exact Nat.sub_add_cancel hD
  intro fuel
  induction fuel with
  | zero =>
    intro j cidx pos r hj hcidx hpos heq hne
    rw [BufferQueue_findLoop] at heq
    exact absurd heq.symm hne
  | succ fuel ih =>
    intro j cidx pos r hj hcidx hpos heq hne
    simp only [BufferQueue_findLoop] at heq
    have hrw : (q.buffer.getD (wIdx q j) []).length = (wChunk q j).length := rfl
    rcases pyFind_bound (q.buffer.getD (wIdx q j) []) d cidx with hf | ⟨i, hf, hge, hle⟩
    · rw [hf] at heq
      rw [if_neg (by simp)] at heq
      cases hm : BufferQueue_straddleGo q d (q.buffer.getD (wIdx q j) []) (wIdx q j)
          (pos + ((q.buffer.getD (wIdx q j) []).length - cidx)) d.length 1 with
      | some v =>
        rw [hm] at heq
        have hv : v = r := heq
        subst hv
        exact straddleGo_bound q d _ (wIdx q j) _ d.length 1 v le_rfl hm
      | none =>
        rw [hm] at heq
        have heq2 : (if (if wIdx q j + 1 = q.buffer_length then 0 else wIdx q j + 1) =
              q.end_idx then (-1 : Int)
            else BufferQueue_findLoop q d fuel
              (if wIdx q j + 1 = q.buffer_length then 0 else wIdx q j + 1) 0
              (pos + ((q.buffer.getD (wIdx q j) []).length - cidx))) = r := heq
        rw [wIdx_succ q hW.1 j] at heq2
        by_cases hend : wIdx q (j + 1) = q.end_idx
        · rw [if_pos hend] at heq2
          exact absurd heq2.symm hne
        · rw [if_neg hend] at heq2
          have hj1 : j + 1 < q.n_items := by
            have hif := wIdx_eq_end_iff q hW (j + 1) (by omega) (by omega)
            rcases Nat.lt_or_ge (j + 1) q.n_items with h | h
            · exact h
            · have h1 : j + 1 = q.n_items := by omega
              exact absurd (hif.mpr h1) hend
          have hS := wSum_succ q j hj
          have hrest : cidx + ((q.buffer.getD (wIdx q j) []).length - cidx) =
              (wChunk q j).length := by
            rw [hrw]
            exact Nat.add_sub_cancel' hcidx
          exact ih (j + 1) 0 (pos + ((q.buffer.getD (wIdx q j) []).length - cidx)) r
            hj1 (Nat.zero_le _) (by omega) heq2 hne
    · rw [hf] at heq
      rw [if_pos (by omega)] at heq
      have hr : r = (pos : Int) + i - cidx := heq.symm
      have hS := wSum_succ q j hj
      have hB := wSum_le q (j + 1)
      rw [hrw] at hle
      omega

theorem find_delim_bound (q : BufferQueue) (d : List Nat) (h : QInv q) (hd : d ≠ [])
    (hne : BufferQueue_find_delim q d ≠ -1) :
    1 ≤ BufferQueue_find_delim q d + d.length ∧
    BufferQueue_find_delim q d + d.length ≤ (q.tot_length : Int) := by
  obtain ⟨hW, htot⟩ := h
  have hdl : 0 < d.length := List.length_pos.mpr hd
  rw [BufferQueue_find_delim] at hne ⊢
  by_cases hg : q.tot_length < d.length
  · rw [if_pos hg] at hne
    exact absurd rfl hne
  · rw [if_neg hg] at hne ⊢
    have hn : 0 < q.n_items := by
      apply n_items_pos_of_contents
      omega
    have hcur : q.cur_offset < (q.buffer.getD q.start_idx []).length := by
      have := hW.2.2.2.2.2.2.2
      rw [if_neg (by omega)] at this
      exact this
    have h0 : q.start_idx = wIdx q 0 := by
      rw [wIdx, Nat.add_zero, Nat.mod_eq_of_lt hW.2.2.1]
    have hch : wChunk q 0 = q.buffer.getD q.start_idx [] := by
      rw [wChunk, ← h0]
    rw [h0] at hne ⊢
    exact findLoop_bound q d hW htot hd (q.buffer_length + 1) 0 q.cur_offset 0 _
      hn (by rw [hch]; omega) (by rw [wSum_zero]) rfl hne

/-!
### Specifications of the delimiter-based queue operations
-/

theorem popline_eq_ok (q : BufferQueue) (ov : Option (List Nat)) (d : List Nat)
    (hdo : effDelim q ov = some d) (hz : ¬ d.length = 0)
    (hm : ¬ BufferQueue_find_delim q d = -1) (hneg : ¬ BufferQueue_find_delim q d < 0) :
    BufferQueue_popline q ov =
      (.ok (BufferQueue_pop q (BufferQueue_find_delim q d).toNat).1,
       (BufferQueue_pop (BufferQueue_pop q (BufferQueue_find_delim q d).toNat).2
         d.length).2) := by
  simp only [BufferQueue_popline, hdo, if_neg hz, if_neg hm, BufferQueue_popSigned,
    if_neg hneg]

theorem popline_err_state (q : BufferQueue) (ov : Option (List Nat)) (e : QbufError)
    (h : (BufferQueue_popline q ov).1 = .error e) :
    (BufferQueue_popline q ov).2 = q := by
  cases hdo : effDelim q ov with
  | none => simp only [BufferQueue_popline, hdo]
  | some d =>
    by_cases hz : d.length = 0
    · simp only [BufferQueue_popline, hdo, if_pos hz]
    · by_cases hm : BufferQueue_find_delim q d = -1
      · simp only [BufferQueue_popline, hdo, if_neg hz, if_pos hm]
      · by_cases hneg : BufferQueue_find_delim q d < 0
        · simp only [BufferQueue_popline, hdo, if_neg hz, if_neg hm,
            BufferQueue_popSigned, if_pos hneg]
        · exfalso
          rw [popline_eq_ok q ov d hdo hz hm hneg] at h
          exact absurd h (by simp)

theorem popline_pops_spec (q : BufferQueue) (d : List Nat) (h : QInv q)
    (hz : ¬ d.length = 0) (hm : ¬ BufferQueue_find_delim q d = -1)
    (hneg : ¬ BufferQueue_find_delim q d < 0) :
    0 < (BufferQueue_find_delim q d).toNat + d.length ∧
    (BufferQueue_find_delim q d).toNat + d.length ≤ q.tot_length ∧
    QInv (BufferQueue_pop (BufferQueue_pop q
      (BufferQueue_find_delim q d).toNat).2 d.length).2 ∧
    qContents (BufferQueue_pop (BufferQueue_pop q
      (BufferQueue_find_delim q d).toNat).2 d.length).2 =
      (qContents q).drop ((BufferQueue_find_delim q d).toNat + d.length) ∧
    (BufferQueue_pop (BufferQueue_pop q
      (BufferQueue_find_delim q d).toNat).2 d.length).2.tot_length =
      q.tot_length - ((BufferQueue_find_delim q d).toNat + d.length) ∧
    (BufferQueue_pop (BufferQueue_pop q
      (BufferQueue_find_delim q d).toNat).2 d.length).2.delim_obj = q.delim_obj ∧
    (BufferQueue_pop q (BufferQueue_find_delim q d).toNat).1 =
      (qContents q).take (BufferQueue_find_delim q d).toNat ∧
    (BufferQueue_pop q (BufferQueue_find_delim q d).toNat).1 ++
        (BufferQueue_pop (BufferQueue_pop q
          (BufferQueue_find_delim q d).toNat).2 d.length).1 =
      (qContents q).take ((BufferQueue_find_delim q d).toNat + d.length) := by
  have hd : d ≠ [] := fun hh => hz (by rw [hh]; rfl)
  have hb := find_delim_bound q d h hd hm
  have ha2 : (BufferQueue_find_delim q d).toNat + d.length ≤ q.tot_length := by omega
  obtain ⟨p1v, p1Q, p1c, p1t, p1d⟩ :=
    BufferQueue_pop_spec q (BufferQueue_find_delim q d).toNat h (by omega)
  obtain ⟨p2v, p2Q, p2c, p2t, p2d⟩ :=
    BufferQueue_pop_spec (BufferQueue_pop q (BufferQueue_find_delim q d).toNat).2
      d.length p1Q (by rw [p1t]; omega)
  refine ⟨by omega, ha2, p2Q, ?_, ?_, ?_, p1v, ?_⟩
  · rw [p2c, p1c, List.drop_drop]
  · rw [p2t, p1t]
    omega
  · rw [p2d, p1d]
  · rw [p2v, p1v, p1c, ← List.take_add]

theorem BufferQueue_popline_QInv (q : BufferQueue) (ov : Option (List Nat)) (h : QInv q) :
    QInv (BufferQueue_popline q ov).2 ∧
    (BufferQueue_popline q ov).2.delim_obj = q.delim_obj := by
  cases hdo : effDelim q ov with
  | none =>
    simp only [BufferQueue_popline, hdo]
    exact ⟨h, by trivial⟩
  | some d =>
    by_cases hz : d.length = 0
    · simp only [BufferQueue_popline, hdo, if_pos hz]
      exact ⟨h, by trivial⟩
    · by_cases hm : BufferQueue_find_delim q d = -1
      · simp only [BufferQueue_popline, hdo, if_neg hz, if_pos hm]
        exact ⟨h, by trivial⟩
      · by_cases hneg : BufferQueue_find_delim q d < 0
        · simp only [BufferQueue_popline, hdo, if_neg hz, if_neg hm,
            BufferQueue_popSigned, if_pos hneg]
          exact ⟨h, by trivial⟩
        · rw [popline_eq_ok q ov d hdo hz hm hneg]
          obtain ⟨_, _, hQ, _, _, hD, _, _⟩ := popline_pops_spec q d h hz hm hneg
          exact ⟨hQ, hD⟩

theorem BufferQueue_poplinesGo_QInv (ov : Option (List Nat)) :
    ∀ (fuel : Nat) (q : BufferQueue) (acc : List (List Nat)), QInv q →
      QInv (BufferQueue_poplinesGo ov fuel q acc).2 ∧
      (BufferQueue_poplinesGo ov fuel q acc).2.delim_obj = q.delim_obj := by
  intro fuel
  induction fuel with
  | zero =>
    intro q acc h
    exact ⟨h, by trivial⟩
  | succ fuel ih =>
    intro q acc h
    rw [BufferQueue_poplinesGo]
    obtain ⟨hQ, hD⟩ := BufferQueue_popline_QInv q ov h
    cases hpl : BufferQueue_popline q ov with
    | mk res q' =>
      rw [hpl] at hQ hD
      cases res with
      | ok line =>
        obtain ⟨h1, h2⟩ := ih q' (acc ++ [line]) hQ
        exact ⟨h1, by rw [h2]; exact hD⟩
      | error e =>
        cases e <;> exact ⟨hQ, hD⟩

theorem BufferQueue_poplines_QInv (q : BufferQueue) (ov : Option (List Nat)) (h : QInv q) :
    QInv (BufferQueue_poplines q ov).2 ∧
    (BufferQueue_poplines q ov).2.delim_obj = q.delim_obj :=
  BufferQueue_poplinesGo_QInv ov (q.tot_length + 1) q [] h

theorem BufferQueue_iternext_QInv (q : BufferQueue) (h : QInv q)
    (hok : ∀ d0, q.delim_obj = some d0 → d0 ≠ []) :
    QInv (BufferQueue_iternext q).2 ∧
    (BufferQueue_iternext q).2.delim_obj = q.delim_obj := by
  cases hdo : q.delim_obj with
  | none =>
    simp only [BufferQueue_iternext, hdo]
    exact ⟨h, by trivial⟩
  | some d =>
    have hd : d ≠ [] := hok d hdo
    by_cases hm : BufferQueue_find_delim q d = -1
    · simp only [BufferQueue_iternext, hdo, if_pos hm]
      exact ⟨h, by trivial⟩
    · have hb := find_delim_bound q d h hd hm
      have hnneg : ¬ BufferQueue_find_delim q d + (d.length : Int) < 0 := by omega
      simp only [BufferQueue_iternext, hdo, if_neg hm, BufferQueue_popSigned,
        if_neg hnneg]
      obtain ⟨pv, pQ, pc, pt, pd⟩ := BufferQueue_pop_spec q
        (BufferQueue_find_delim q d + (d.length : Int)).toNat h (by omega)
      exact ⟨pQ, by rw [pd]; exact hdo⟩

theorem BufferQueue_doclear_QInv (q : BufferQueue) (h : QInv q) :
    QInv (BufferQueue_doclear q) := by
  obtain ⟨⟨hbl, hbuf, _, _, _, _, _, _⟩, _⟩ := h
  have hwc : windowChunks (BufferQueue_doclear q) = [] := rfl
  refine ⟨⟨hbl, hbuf, hbl, hbl, ?_, ?_, ?_, ?_⟩, ?_⟩
  · show (0 : Nat) ≤ q.buffer_length
    omega
  · show (0 : Nat) = (0 + 0) % q.buffer_length
    rw [Nat.add_zero, Nat.zero_mod]
  · intro c hc
    rw [hwc] at hc
    exact absurd hc (List.not_mem_nil c)
  · show if (0 : Nat) = 0 then (0 : Nat) = 0 else
      (0 : Nat) < (q.buffer.getD 0 []).length
    rw [if_pos rfl]
  · show (0 : Nat) = (qContents (BufferQueue_doclear q)).length
    rw [qContents, hwc]
    rfl

theorem BufferQueue_dopop_spec (q : BufferQueue) (n : Int) (h : QInv q) :
    (n < 0 → BufferQueue_dopop q n = (.error .invalidArg, q)) ∧
    (0 ≤ n → (q.tot_length : Int) < n → BufferQueue_dopop q n = (.error .underflow, q)) ∧
    (0 ≤ n → n ≤ (q.tot_length : Int) →
      BufferQueue_dopop q n = (.ok ((qContents q).take n.toNat),
        (BufferQueue_pop q n.toNat).2) ∧
      QInv (BufferQueue_dopop q n).2 ∧
      qContents (BufferQueue_dopop q n).2 = (qContents q).drop n.toNat ∧
      (BufferQueue_dopop q n).2.tot_length = q.tot_length - n.toNat ∧
      (BufferQueue_dopop q n).2.delim_obj = q.delim_obj) := by
  refine ⟨?_, ?_, ?_⟩
  · intro hn
    rw [BufferQueue_dopop, if_pos hn]
  · intro hn hu
    rw [BufferQueue_dopop, if_neg (by omega), if_pos hu]
  · intro hn hle
    have hnn : ¬ n < 0 := by omega
    have hnu : ¬ (q.tot_length : Int) < n := by omega
    obtain ⟨pv, pQ, pc, pt, pd⟩ := BufferQueue_pop_spec q n.toNat h (by omega)
    rw [BufferQueue_dopop, if_neg hnn, if_neg hnu]
    refine ⟨?_, pQ, pc, pt, pd⟩
    show ((Except.ok (BufferQueue_pop q n.toNat).1 : Except QbufError (List Nat)),
      (BufferQueue_pop q n.toNat).2) = _
    rw [pv]

theorem BufferQueue_dopop_atmost_spec (q : BufferQueue) (n : Int) (h : QInv q) :
    (n < 0 → BufferQueue_dopop_atmost q n = (.error .invalidArg, q)) ∧
    (0 ≤ n →
      BufferQueue_dopop_atmost q n =
        (.ok ((qContents q).take
          (if (q.tot_length : Int) < n then q.tot_length else n.toNat)),
         (BufferQueue_pop q
           (if (q.tot_length : Int) < n then q.tot_length else n.toNat)).2) ∧
      QInv (BufferQueue_dopop_atmost q n).2 ∧
      qContents (BufferQueue_dopop_atmost q n).2 =
        (qContents q).drop (if (q.tot_length : Int) < n then q.tot_length else n.toNat) ∧
      (BufferQueue_dopop_atmost q n).2.tot_length =
        q.tot_length - (if (q.tot_length : Int) < n then q.tot_length else n.toNat) ∧
      (BufferQueue_dopop_atmost q n).2.delim_obj = q.delim_obj) := by
  refine ⟨?_, ?_⟩
  · intro hn
    rw [BufferQueue_dopop_atmost, if_pos hn]
  · intro hn
    have hnn : ¬ n < 0 := by omega
    have hm : (if (q.tot_length : Int) < n then q.tot_length else n.toNat) ≤
        q.tot_length := by
      split
      · omega
      · omega
    obtain ⟨pv, pQ, pc, pt, pd⟩ := BufferQueue_pop_spec q
      (if (q.tot_length : Int) < n then q.tot_length else n.toNat) h hm
    rw [BufferQueue_dopop_atmost, if_neg hnn]
    refine ⟨?_, pQ, pc, pt, pd⟩
    show ((Except.ok (BufferQueue_pop q
        (if (q.tot_length : Int) < n then q.tot_length else n.toNat)).1 :
        Except QbufError (List Nat)),
      (BufferQueue_pop q
        (if (q.tot_length : Int) < n then q.tot_length else n.toNat)).2) = _
    rw [pv]

theorem BufferQueue_dopop_QInv (q : BufferQueue) (n : Int) (h : QInv q) :
    QInv (BufferQueue_dopop q n).2 := by
  obtain ⟨h1, h2, h3⟩ := BufferQueue_dopop_spec q n h
  by_cases hn : n < 0
  · rw [h1 hn]; exact h
  · by_cases hu : (q.tot_length : Int) < n
    · rw [h2 (by omega) hu]; exact h
    · exact (h3 (by omega) (by omega)).2.1

theorem BufferQueue_dopop_atmost_QInv (q : BufferQueue) (n : Int) (h : QInv q) :
    QInv (BufferQueue_dopop_atmost q n).2 := by
  obtain ⟨h1, h2⟩ := BufferQueue_dopop_atmost_spec q n h
  by_cases hn : n < 0
  · rw [h1 hn]; exact h
  · exact (h2 (by omega)).2.1

theorem QInv_ClaimInv (q : BufferQueue) (h : QInv q) : ClaimInv q := by
  obtain ⟨⟨hbl, hbuf, hs, he, hnbl, hidx, hchunks, hcur⟩, htot⟩ := h
  refine ⟨?_, ?_, ?_⟩
  · by_cases hfull : q.n_items = q.buffer_length
    · exact Or.inl hfull
    · have key : (q.buffer_length + q.end_idx - q.start_idx) % q.buffer_length =
          q.n_items := by
        rw [hidx]
        by_cases hlt : q.start_idx + q.n_items < q.buffer_length
        · rw [Nat.mod_eq_of_lt hlt, Nat.add_left_comm q.buffer_length q.start_idx
            q.n_items, Nat.add_sub_cancel_left, Nat.add_mod_left,
            Nat.mod_eq_of_lt (by omega)]
        · obtain ⟨c, hc⟩ : ∃ c, q.start_idx + q.n_items = q.buffer_length + c :=
            ⟨q.start_idx + q.n_items - q.buffer_length,
             (Nat.add_sub_cancel' (Nat.le_of_not_lt hlt)).symm⟩
          have hcb : c < q.buffer_length := by omega
          have hnb : q.n_items < q.buffer_length := by omega
          rw [hc, Nat.add_mod_left, Nat.mod_eq_of_lt hcb, ← hc,
            Nat.add_sub_cancel_left, Nat.mod_eq_of_lt hnb]
      exact Or.inr key.symm
  · rw [htot, qContents, List.length_drop]
  · intro hn0
    rw [if_neg (Nat.pos_iff_ne_zero.mp hn0)] at hcur
    exact hcur

/-- C9: every public operation of the segmented queue — push, exact pop,
pop-at-most, pop_line, pop_lines, clear and one iteration step — preserves
the state invariant `QInv`, which contains the claimed properties
(`ClaimInv`): `n_items` equals `(end_idx - start_idx) mod buffer_length`
(or `buffer_length` when full), `tot_length` equals the sum of the stored
chunk lengths minus `cursor_offset`, and `cursor_offset` is a valid offset
into the head chunk whenever `n_items > 0`.  The delimiter hypothesis
records what `BufferQueue_setdelim` guarantees: a configured delimiter is
never the empty string. -/
theorem c9_invariant_preservation (q : BufferQueue) (s : List Nat) (n m : Int)
    (ov ov2 : Option (List Nat))
    (h : QInv q) (hdelim : ∀ d0, q.delim_obj = some d0 → d0 ≠ []) :
    ClaimInv q ∧
    QInv (BufferQueue_push q s) ∧
    QInv (BufferQueue_dopop q n).2 ∧
    QInv (BufferQueue_dopop_atmost q m).2 ∧
    QInv (BufferQueue_popline q ov).2 ∧
    QInv (BufferQueue_poplines q ov2).2 ∧
    QInv (BufferQueue_doclear q) ∧
    QInv (BufferQueue_iternext q).2 :=
  ⟨QInv_ClaimInv q h,
   (BufferQueue_push_spec q s h).1,
   BufferQueue_dopop_QInv q n h,
   BufferQueue_dopop_atmost_QInv q m h,
   (BufferQueue_popline_QInv q ov h).1,
   (BufferQueue_poplines_QInv q ov2 h).1,
   BufferQueue_doclear_QInv q h,
   (BufferQueue_iternext_QInv q h hdelim).1⟩

/-- Witness for `c9_invariant_preservation` at a concrete reachable state. -/
theorem c9_invariant_preservation_witness :
    ClaimInv badQ1 ∧
    QInv (BufferQueue_push badQ1 [7, 8]) ∧
    QInv (BufferQueue_dopop badQ1 2).2 ∧
    QInv (BufferQueue_dopop_atmost badQ1 99).2 ∧
    QInv (BufferQueue_popline badQ1 (some [3])).2 ∧
    QInv (BufferQueue_poplines badQ1 none).2 ∧
    QInv (BufferQueue_doclear badQ1) ∧
    QInv (BufferQueue_iternext badQ1).2 :=
  c9_invariant_preservation badQ1 [7, 8] 2 99 (some [3]) none (by decide)
    (by intro d0 hd0; rw [show badQ1.delim_obj = some [0,1,2,3] from rfl] at hd0;
        rw [← Option.some.inj hd0]; decide)

/-!
### Ring buffer: storage and contents lemmas
-/

theorem mod_ne_helper (size a b : Nat) (hab : a < b) (hb : b - a < size)
    (h : a ≡ b [MOD size]) : False := by
  have h3 : size ∣ (b - a) := (Nat.modEq_iff_dvd' (by omega)).mp h
  have := Nat.le_of_dvd (by omega) h3
  omega

theorem old_idx_ne (size ps len i c : Nat) (hi : i < len) (hbound : len + c < size + i)
    (hceq : (ps + i) % size = (ps + (len + c)) % size) : False := by
  have h2 : i ≡ len + c [MOD size] := Nat.ModEq.add_left_cancel' ps hceq
  exact mod_ne_helper size i (len + c) (by omega) (by omega) h2

theorem mod_shift (ps len k size pe : Nat) (hmod : pe % size = (ps + len) % size) :
    (ps + (len + k)) % size = (pe + k) % size := by
  have h1 : ps + (len + k) = (ps + len) + k := by omega
  rw [h1, ← Nat.mod_add_mod, ← hmod, Nat.mod_add_mod]

theorem writeBytes_length (s d : List Nat) (p : Nat) (h : p + d.length ≤ s.length) :
    (writeBytes s p d).length = s.length := by
  rw [writeBytes, List.length_append, List.length_append, List.length_take,
    List.length_drop, Nat.min_eq_left (show p ≤ s.length by omega)]
  omega

theorem getD_writeBytes (s d : List Nat) (p k : Nat) (h : p + d.length ≤ s.length) :
    (writeBytes s p d).getD k 256 =
      if p ≤ k ∧ k < p + d.length then d.getD (k - p) 256 else s.getD k 256 := by
  have hp : p ≤ s.length := Nat.le_trans (Nat.le_add_right p d.length) h
  have htp : (s.take p).length = p := by
    rw [List.length_take, Nat.min_eq_left hp]
  have htd : (s.take p ++ d).length = p + d.length := by
    rw [List.length_append, htp]
  rw [writeBytes]
  by_cases h1 : k < p
  · obtain ⟨o1, o2⟩ : ¬ (p ≤ k ∧ k < p + d.length) ∧ k < p + d.length := by omega
    rw [if_neg o1, getD_append_left _ _ _ _ (by rw [htd]; exact o2),
      getD_append_left _ _ _ _ (by rw [htp]; exact h1), getD_take _ _ _ _ h1]
  · have h1' : p ≤ k := Nat.le_of_not_lt h1
    by_cases h2 : k < p + d.length
    · rw [if_pos ⟨h1', h2⟩, getD_append_left _ _ _ _ (by rw [htd]; exact h2),
        getD_append_right _ _ _ _ (by rw [htp]; exact h1'), htp]
    · obtain ⟨o1, o2, o3⟩ : ¬ (p ≤ k ∧ k < p + d.length) ∧ p + d.length ≤ k ∧
          p + d.length + (k - (p + d.length)) = k := by omega
      rw [if_neg o1, getD_append_right _ _ _ _ (by rw [htd]; exact o2), htd,
        getD_drop]
      congr 1

theorem rcontents_length (r : Ringbuf) : (rcontents r).length = r.length := by
  rw [rcontents, List.length_map, List.length_range]

theorem rcontents_getD (r : Ringbuf) (i : Nat) (hi : i < r.length) :
    (rcontents r).getD i 256 =
      r.storage.getD ((r.ptr_start + i) % r.buffer_size) 256 := by
  rw [rcontents, List.getD_eq_getElem?_getD, List.getElem?_map,
    List.getElem?_range hi]
  rfl

theorem map_range_eq (n : Nat) (f : Nat → Nat) (l : List Nat) (hl : l.length = n)
    (hpt : ∀ i, i < n → f i = l.getD i 256) :
    (List.range n).map f = l := by
  apply List.ext_getElem
  · rw [List.length_map, List.length_range, hl]
  · intro i hi1 hi2
    rw [List.getElem_map, List.getElem_range]
    have hi : i < n := by
      rw [List.length_map, List.length_range] at hi1
      exact hi1
    rw [hpt i hi, List.getD_eq_getElem?_getD, List.getElem?_eq_getElem hi2]
    rfl

theorem append_getD (l1 l2 : List Nat) (i : Nat) :
    (l1 ++ l2).getD i 256 =
      if i < l1.length then l1.getD i 256 else l2.getD (i - l1.length) 256 := by
  by_cases h : i < l1.length
  · rw [if_pos h, getD_append_left _ _ _ _ h]
  · rw [if_neg h, getD_append_right _ _ _ _ (by omega)]


theorem nowrap_getD (s data : List Nat) (ps pe len size : Nat)
    (hs : s.length = size)
    (hmod : pe % size = (ps + len) % size)
    (hno : len + data.length ≤ size) (hwle : pe + data.length ≤ size)
    (i : Nat) (hi : i < len + data.length) :
    (writeBytes s pe data).getD ((ps + i) % size) 256 =
      if i < len then s.getD ((ps + i) % size) 256 else data.getD (i - len) 256 := by
  have hsz : 0 < size := by omega
  have hidx : (ps + i) % size < size := Nat.mod_lt _ hsz
  rw [getD_writeBytes _ _ _ _ (by rw [hs]; exact hwle)]
  by_cases hil : i < len
  · have f1 : ¬ (pe ≤ (ps + i) % size ∧ (ps + i) % size < pe + data.length) := by
      intro ⟨hz1, hz2⟩
      refine old_idx_ne size ps len i ((ps + i) % size - pe) hil (by omega) ?_
      rw [mod_shift ps len _ size pe hmod, Nat.add_sub_cancel' hz1,
        Nat.mod_eq_of_lt hidx]
    rw [if_neg f1, if_pos hil]
  · have hle : len ≤ i := Nat.le_of_not_lt hil
    have hj : i - len < data.length := by omega
    have hlt : pe + (i - len) < size :=
      Nat.lt_of_lt_of_le (Nat.add_lt_add_left hj pe) hwle
    rw [if_neg hil]
    have hidx2 : (ps + i) % size = pe + (i - len) := by
      conv_lhs => rw [(Nat.add_sub_cancel' hle).symm]
      rw [mod_shift ps len (i - len) size pe hmod, Nat.mod_eq_of_lt hlt]
    rw [hidx2, if_pos ⟨Nat.le_add_right pe (i - len), Nat.add_lt_add_left hj pe⟩,
      Nat.add_sub_cancel_left]

theorem wrap_getD (s data : List Nat) (ps pe len size ov : Nat)
    (hov : pe + ov = size) (hs : s.length = size)
    (hmod : pe % size = (ps + len) % size)
    (hno : len + data.length ≤ size) (hovd : ov < data.length)
    (i : Nat) (hi : i < len + data.length) :
    (writeBytes (writeBytes s pe (data.take ov)) 0 (data.drop ov)).getD
        ((ps + i) % size) 256 =
      if i < len then s.getD ((ps + i) % size) 256 else data.getD (i - len) 256 := by
  have hdls : data.length ≤ size := Nat.le_trans (Nat.le_add_left _ _) hno
  have hsz : 0 < size :=
    Nat.lt_of_le_of_lt (Nat.zero_le ov) (Nat.lt_of_lt_of_le hovd hdls)
  have hidx : (ps + i) % size < size := Nat.mod_lt _ hsz
  have htkl : (data.take ov).length = ov := by
    rw [List.length_take, Nat.min_eq_left (Nat.le_of_lt hovd)]
  have hdl : ov + (data.drop ov).length = data.length := by
    rw [List.length_drop]
    exact Nat.add_sub_cancel' (Nat.le_of_lt hovd)
  have hd2s : (data.drop ov).length ≤ size :=
    Nat.le_trans (Nat.le.intro (by rw [Nat.add_comm]; exact hdl)) hdls
  have hst1 : (writeBytes s pe (data.take ov)).length = size := by
    rw [writeBytes_length _ _ _ (by rw [htkl, hs]; exact Nat.le_of_eq hov), hs]
  rw [getD_writeBytes _ _ _ _ (by rw [hst1, Nat.zero_add]; exact hd2s),
    getD_writeBytes _ _ _ _ (by rw [htkl, hs]; exact Nat.le_of_eq hov)]
  by_cases hil : i < len
  · have f1 : ¬ (0 ≤ (ps + i) % size ∧
        (ps + i) % size < 0 + (data.drop ov).length) := by
      intro ⟨hz1, hz2⟩
      refine old_idx_ne size ps len i (ov + (ps + i) % size) hil (by omega) ?_
      rw [mod_shift ps len _ size pe hmod, ← Nat.add_assoc, hov,
        Nat.add_mod_left, Nat.mod_eq_of_lt hidx]
    have f2 : ¬ (pe ≤ (ps + i) % size ∧
        (ps + i) % size < pe + (data.take ov).length) := by
      intro ⟨hz1, hz2⟩
      rw [htkl] at hz2
      obtain ⟨c, hc⟩ : ∃ c, (ps + i) % size = pe + c :=
        ⟨(ps + i) % size - pe, (Nat.add_sub_cancel' hz1).symm⟩
      rw [hc] at hz2
      refine old_idx_ne size ps len i c hil (by omega) ?_
      rw [mod_shift ps len _ size pe hmod, ← hc, Nat.mod_eq_of_lt hidx]
    rw [if_neg f1, if_neg f2, if_pos hil]
  · have hle : len ≤ i := Nat.le_of_not_lt hil
    obtain ⟨j, rfl⟩ : ∃ j, i = len + j := ⟨i - len, (Nat.add_sub_cancel' hle).symm⟩
    have hj : j < data.length := Nat.lt_of_add_lt_add_left hi
    rw [if_neg hil, Nat.add_sub_cancel_left]
    have hd2pe : (data.drop ov).length ≤ pe := by
      refine Nat.le_of_add_le_add_left (a := ov) ?_
      rw [hdl, Nat.add_comm ov pe, hov]
      exact hdls
    have hmodi : (ps + (len + j)) % size = (pe + j) % size :=
      mod_shift ps len j size pe hmod
    by_cases hfirst : j < ov
    · have hpj : pe + j < size := by
        rw [← hov]
        exact Nat.add_lt_add_left hfirst pe
      have hidx2 : (ps + (len + j)) % size = pe + j := by
        rw [hmodi, Nat.mod_eq_of_lt hpj]
      have hnz : ¬ (0 ≤ pe + j ∧ pe + j < 0 + (data.drop ov).length) := by
        intro hh
        rw [Nat.zero_add] at hh
        exact absurd hh.2 (Nat.not_lt.mpr (le_trans hd2pe (Nat.le_add_right pe j)))
      rw [hidx2, if_neg hnz, if_pos
        ⟨Nat.le_add_right pe j, by rw [htkl]; exact Nat.add_lt_add_left hfirst pe⟩,
        Nat.add_sub_cancel_left, getD_take _ _ _ _ hfirst]
    · obtain ⟨k, rfl⟩ : ∃ k, j = ov + k :=
        ⟨j - ov, (Nat.add_sub_cancel' (Nat.le_of_not_lt hfirst)).symm⟩
      have hkd2 : k < (data.drop ov).length :=
        Nat.lt_of_add_lt_add_left (by rw [hdl]; exact hj)
      have hidx2 : (ps + (len + (ov + k))) % size = k := by
        rw [hmodi, ← Nat.add_assoc, hov, Nat.add_mod_left,
          Nat.mod_eq_of_lt (Nat.lt_of_lt_of_le hkd2 hd2s)]
      rw [hidx2, if_pos ⟨Nat.zero_le k, by rw [Nat.zero_add]; exact hkd2⟩,
        Nat.sub_zero, getD_drop]

theorem Ringbuf_push_spec (r : Ringbuf) (data : List Nat) (h : WFr r)
    (hle : data.length + r.length ≤ r.buffer_size) :
    (Ringbuf_push r data).1 = .ok () ∧
    WFr (Ringbuf_push r data).2 ∧
    rcontents (Ringbuf_push r data).2 = rcontents r ++ data ∧
    (Ringbuf_push r data).2.length = r.length + data.length ∧
    (Ringbuf_push r data).2.buffer_size = r.buffer_size ∧
    (Ringbuf_push r data).2.ptr_start = r.ptr_start ∧
    (Ringbuf_push r data).2.delimiter = r.delimiter := by
  obtain ⟨hst, hps, hpe, hlen, hmod⟩ := h
  have hno : ¬ r.buffer_size < data.length + r.length := Nat.not_lt.mpr hle
  have hld : r.length + data.length ≤ r.buffer_size := by omega
  by_cases hw : r.buffer_size < r.ptr_end + data.length
  · have hov : r.ptr_end + (r.buffer_size - r.ptr_end) = r.buffer_size :=
      Nat.add_sub_cancel' hpe
    obtain ⟨p1, p2, p3⟩ :
        data.length - (r.buffer_size - r.ptr_end) ≤ r.buffer_size ∧
        r.ptr_end + data.length =
          r.buffer_size + (data.length - (r.buffer_size - r.ptr_end)) ∧
        r.buffer_size - r.ptr_end < data.length := by
      omega
    have heq : Ringbuf_push r data = (.ok (), { r with
        storage := writeBytes (writeBytes r.storage r.ptr_end
          (data.take (r.buffer_size - r.ptr_end))) 0
          (data.drop (r.buffer_size - r.ptr_end)),
        ptr_end := data.length - (r.buffer_size - r.ptr_end),
        length := r.length + data.length }) := by
      rw [Ringbuf_push, if_neg hno, if_pos hw]
    rw [heq]
    have htkl : (data.take (r.buffer_size - r.ptr_end)).length =
        r.buffer_size - r.ptr_end := by
      rw [List.length_take, Nat.min_eq_left (Nat.le_of_lt p3)]
    have hst1 : (writeBytes r.storage r.ptr_end
        (data.take (r.buffer_size - r.ptr_end))).length = r.buffer_size := by
      rw [writeBytes_length _ _ _ (by rw [htkl, hst]; exact Nat.le_of_eq hov), hst]
    have hst2 : (writeBytes (writeBytes r.storage r.ptr_end
        (data.take (r.buffer_size - r.ptr_end))) 0
        (data.drop (r.buffer_size - r.ptr_end))).length = r.buffer_size := by
      rw [writeBytes_length _ _ _ (by rw [List.length_drop, hst1]; omega), hst1]
    refine ⟨rfl, ⟨hst2, hps,
      by show data.length - (r.buffer_size - r.ptr_end) ≤ r.buffer_size; exact p1,
      by show r.length + data.length ≤ r.buffer_size; exact hld, ?_⟩,
      ?_, rfl, rfl, rfl, rfl⟩
    · show (data.length - (r.buffer_size - r.ptr_end)) % r.buffer_size =
        (r.ptr_start + (r.length + data.length)) % r.buffer_size
      rw [mod_shift r.ptr_start r.length data.length r.buffer_size r.ptr_end hmod,
        p2, Nat.add_mod_left]
    · show (List.range (r.length + data.length)).map (fun i =>
        (writeBytes (writeBytes r.storage r.ptr_end
          (data.take (r.buffer_size - r.ptr_end))) 0
          (data.drop (r.buffer_size - r.ptr_end))).getD
          ((r.ptr_start + i) % r.buffer_size) 256) = rcontents r ++ data
      apply map_range_eq
      · rw [List.length_append, rcontents_length]
      · intro i hi
        rw [wrap_getD r.storage data r.ptr_start r.ptr_end r.length r.buffer_size
          (r.buffer_size - r.ptr_end) hov hst hmod hld p3 i hi,
          append_getD, rcontents_length]
        by_cases hil : i < r.length
        · rw [if_pos hil, if_pos hil, rcontents_getD r i hil]
        · rw [if_neg hil, if_neg hil]
  · have hwle : r.ptr_end + data.length ≤ r.buffer_size := Nat.le_of_not_lt hw
    have heq : Ringbuf_push r data = (.ok (), { r with
        storage := writeBytes r.storage r.ptr_end data,
        ptr_end := r.ptr_end + data.length,
        length := r.length + data.length }) := by
      rw [Ringbuf_push, if_neg hno, if_neg hw]
    rw [heq]
    have hwlen : (writeBytes r.storage r.ptr_end data).length = r.buffer_size := by
      rw [writeBytes_length _ _ _ (by rw [hst]; exact hwle)]
      exact hst
    refine ⟨rfl, ⟨hwlen, hps,
      by show r.ptr_end + data.length ≤ r.buffer_size; exact hwle,
      by show r.length + data.length ≤ r.buffer_size; exact hld, ?_⟩,
      ?_, rfl, rfl, rfl, rfl⟩
    · show (r.ptr_end + data.length) % r.buffer_size =
        (r.ptr_start + (r.length + data.length)) % r.buffer_size
      rw [mod_shift r.ptr_start r.length data.length r.buffer_size r.ptr_end hmod]
    · show (List.range (r.length + data.length)).map (fun i =>
        (writeBytes r.storage r.ptr_end data).getD
          ((r.ptr_start + i) % r.buffer_size) 256) = rcontents r ++ data
      apply map_range_eq
      · rw [List.length_append, rcontents_length]
      · intro i hi
        rw [nowrap_getD r.storage data r.ptr_start r.ptr_end r.length r.buffer_size
          hst hmod hld hwle i hi, append_getD, rcontents_length]
        by_cases hil : i < r.length
        · rw [if_pos hil, if_pos hil, rcontents_getD r i hil]
        · rw [if_neg hil, if_neg hil]

theorem Ringbuf_pop_none (r : Ringbuf) (n : Nat) (h : r.length < n) :
    Ringbuf_pop r n = none := by
  rw [Ringbuf_pop, if_pos h]

theorem Ringbuf_pop_spec (r : Ringbuf) (n : Nat) (h : WFr r) (hn : n ≤ r.length) :
    ∃ r', Ringbuf_pop r n = some ((rcontents r).take n, r') ∧
      WFr r' ∧
      rcontents r' = (rcontents r).drop n ∧
      r'.length = r.length - n ∧
      r'.buffer_size = r.buffer_size ∧
      r'.storage = r.storage ∧
      r'.delimiter = r.delimiter := by
  obtain ⟨hst, hps, hpe, hlen, hmod⟩ := h
  rw [Ringbuf_pop, if_neg (Nat.not_lt.mpr hn)]
  by_cases hw : r.buffer_size < r.ptr_start + n
  · rw [if_pos hw]
    dsimp only
    generalize hgen : r.buffer_size - r.ptr_start = ov
    generalize hm : n - ov = m
    generalize hrem : r.length - n = rem
    have hov : r.ptr_start + ov = r.buffer_size := by
      rw [← hgen]
      exact Nat.add_sub_cancel' hps
    have hovn : ov < n := by
      rw [← hov] at hw
      exact Nat.lt_of_add_lt_add_left hw
    have hsum : ov + m = n := by
      rw [← hm]
      exact Nat.add_sub_cancel' (Nat.le_of_lt hovn)
    have hrm : n + rem = r.length := by
      rw [← hrem]
      exact Nat.add_sub_cancel' hn
    have hmb : m ≤ r.buffer_size :=
      le_trans (le_trans (Nat.le.intro (by rw [Nat.add_comm]; exact hsum)) hn) hlen
    have hremb : rem ≤ r.buffer_size :=
      le_trans (Nat.le.intro (by rw [Nat.add_comm]; exact hrm)) hlen
    have hl1 : ((r.storage.drop r.ptr_start).take ov).length = ov := by
      rw [List.length_take, List.length_drop, hst, hgen, Nat.min_self]
    clear hgen hm
    have hl2 : (r.storage.take m).length = m := by
      rw [List.length_take, hst]
      exact Nat.min_eq_left hmb
    have hval : (rcontents r).take n =
        (r.storage.drop r.ptr_start).take ov ++ r.storage.take m := by
      rw [rcontents, ← List.map_take, List.take_range, Nat.min_eq_left hn]
      apply map_range_eq
      · rw [List.length_append, hl1, hl2]
        exact hsum
      · intro i hi
        rw [append_getD, hl1]
        by_cases hfirst : i < ov
        · have hpi : r.ptr_start + i < r.buffer_size := by
            rw [← hov]
            exact Nat.add_lt_add_left hfirst r.ptr_start
          rw [if_pos hfirst, getD_take _ _ _ _ hfirst, getD_drop,
            Nat.mod_eq_of_lt hpi]
        · obtain ⟨c, rfl⟩ : ∃ c, i = ov + c :=
            ⟨i - ov, (Nat.add_sub_cancel' (Nat.le_of_not_lt hfirst)).symm⟩
          have hcm : c < m :=
            Nat.lt_of_add_lt_add_left (by rw [hsum]; exact hi)
          rw [if_neg hfirst, Nat.add_sub_cancel_left, getD_take _ _ _ _ hcm]
          congr 1
          rw [← Nat.add_assoc, hov, Nat.add_mod_left,
            Nat.mod_eq_of_lt (Nat.lt_of_lt_of_le hcm hmb)]
    refine ⟨{ r with ptr_start := m, length := rem }, by rw [hval], ⟨hst,
      by show m ≤ r.buffer_size; exact hmb, hpe,
      by show rem ≤ r.buffer_size; exact hremb, ?_⟩, ?_, rfl, rfl, rfl, rfl⟩
    · show r.ptr_end % r.buffer_size = (m + rem) % r.buffer_size
      rw [hmod, show r.ptr_start + r.length = r.buffer_size + (m + rem) by
        rw [← hrm, ← hsum, Nat.add_assoc ov m rem,
          ← Nat.add_assoc r.ptr_start ov (m + rem), hov], Nat.add_mod_left]
    · show (List.range rem).map (fun i =>
        r.storage.getD ((m + i) % r.buffer_size) 256) = (rcontents r).drop n
      apply map_range_eq
      · rw [List.length_drop, rcontents_length, hrem]
      · intro i hi
        rw [getD_drop, rcontents_getD r (n + i)
          (by rw [← hrm]; exact Nat.add_lt_add_left hi n)]
        congr 1
        rw [← hsum, Nat.add_assoc ov m i, ← Nat.add_assoc r.ptr_start ov (m + i),
          hov, Nat.add_mod_left]
  · rw [if_neg hw]
    generalize hrem : r.length - n = rem
    have hrm : n + rem = r.length := by
      rw [← hrem]
      exact Nat.add_sub_cancel' hn
    have hwle : r.ptr_start + n ≤ r.buffer_size := Nat.le_of_not_lt hw
    have hremb : rem ≤ r.buffer_size :=
      le_trans (Nat.le.intro (by rw [Nat.add_comm]; exact hrm)) hlen
    have hval : (rcontents r).take n = (r.storage.drop r.ptr_start).take n := by
      rw [rcontents, ← List.map_take, List.take_range, Nat.min_eq_left hn]
      apply map_range_eq
      · rw [List.length_take, List.length_drop, hst]
        exact Nat.min_eq_left (Nat.le_sub_of_add_le
          (by rw [Nat.add_comm]; exact hwle))
      · intro i hi
        rw [getD_take _ _ _ _ hi, getD_drop, Nat.mod_eq_of_lt
          (Nat.lt_of_lt_of_le (Nat.add_lt_add_left hi r.ptr_start) hwle)]
    refine ⟨{ r with ptr_start := r.ptr_start + n, length := rem },
      by rw [hval], ⟨hst, by show r.ptr_start + n ≤ r.buffer_size; exact hwle, hpe,
      by show rem ≤ r.buffer_size; exact hremb, ?_⟩, ?_, rfl, rfl, rfl, rfl⟩
    · show r.ptr_end % r.buffer_size = (r.ptr_start + n + rem) % r.buffer_size
      rw [hmod, show r.ptr_start + r.length = r.ptr_start + n + rem by
        rw [← hrm, ← Nat.add_assoc]]
    · show (List.range rem).map (fun i =>
        r.storage.getD ((r.ptr_start + n + i) % r.buffer_size) 256)
        = (rcontents r).drop n
      apply map_range_eq
      · rw [List.length_drop, rcontents_length, hrem]
      · intro i hi
        rw [getD_drop, rcontents_getD r (n + i)
          (by rw [← hrm]; exact Nat.add_lt_add_left hi n), Nat.add_assoc]

/-!
### Ring buffer: find_delim bound and the error-handling claims
-/

theorem Ringbuf_find_delim_bound (r : Ringbuf) (k : Nat)
    (h : Ringbuf_find_delim r = some k) : k + r.delimiter.length ≤ r.length := by
  rw [Ringbuf_find_delim] at h
  by_cases hl : r.length < r.delimiter.length
  · rw [if_pos hl] at h
    exact absurd h (by simp)
  · rw [if_neg hl] at h
    have hm := List.mem_of_find?_eq_some h
    rw [List.mem_range] at hm
    omega

/-- C4: `Ringbuf_push` fails (Overflow) exactly when the data does not fit,
a failed push returns the state bit-for-bit unchanged (write pointer,
length and storage included), and a successful push appends the data and
grows `length` by `data.length`. -/
theorem c4_push_overflow (r : Ringbuf) (data : List Nat) (h : WFr r) :
    ((Ringbuf_push r data).1 = .error () ↔ r.buffer_size < r.length + data.length) ∧
    (r.buffer_size < r.length + data.length → (Ringbuf_push r data).2 = r) ∧
    (r.length + data.length ≤ r.buffer_size →
      (Ringbuf_push r data).1 = .ok () ∧
      rcontents (Ringbuf_push r data).2 = rcontents r ++ data ∧
      (Ringbuf_push r data).2.length = r.length + data.length) := by
  by_cases hov : r.buffer_size < r.length + data.length
  · have he : Ringbuf_push r data = (.error (), r) := by
      rw [Ringbuf_push, if_pos (by omega)]
    rw [he]
    exact ⟨⟨fun _ => hov, fun _ => rfl⟩, fun _ => rfl, fun hle => absurd hle (by omega)⟩
  · obtain ⟨hok, _, happ, hlen, _⟩ := Ringbuf_push_spec r data h (by omega)
    refine ⟨⟨fun hc => ?_, fun hc => absurd hc hov⟩, fun hc => absurd hc hov,
      fun _ => ⟨hok, happ, hlen⟩⟩
    rw [hok] at hc
    exact Except.noConfusion hc

/-- Witness for `c4_push_overflow`: a ring of size 8 holding `[1,10]`. -/
theorem c4_push_overflow_witness :
    WFr ring1 ∧
    (((Ringbuf_push ring1 [4,5,6]).1 = .error () ↔
      ring1.buffer_size < ring1.length + 3) ∧
    (ring1.buffer_size < ring1.length + 3 → (Ringbuf_push ring1 [4,5,6]).2 = ring1) ∧
    (ring1.length + 3 ≤ ring1.buffer_size →
      (Ringbuf_push ring1 [4,5,6]).1 = .ok () ∧
      rcontents (Ringbuf_push ring1 [4,5,6]).2 = rcontents ring1 ++ [4,5,6] ∧
      (Ringbuf_push ring1 [4,5,6]).2.length = ring1.length + 3)) :=
  ⟨by decide, c4_push_overflow ring1 [4,5,6] (by decide)⟩

/-- C5: false on the code as stated.  A pop with a negative requested
length does not fail with `Underflow`: both `BufferQueue_dopop`
(src/qbufmodule.c:461-465) and `Ringbuf_dopop` (src/ringbuf.c:276-280)
raise `ValueError` (`invalidArg`) for a negative length, a distinct error
from `Underflow`. -/
theorem c5_pop_counterexample :
    (BufferQueue_dopop (BufferQueue_mk none) (-1)).1 = .error .invalidArg ∧
    (Ringbuf_dopop (Ringbuf_mk 4 none) (-1)).1 = .error .invalidArg ∧
    QbufError.invalidArg ≠ QbufError.underflow :=
  ⟨rfl, rfl, by decide⟩

/-- C5 (amended): for both structures an exact pop with `n < 0` fails with
`ValueError` (`invalidArg`), not `Underflow`; a pop of more than the
buffered byte count fails with `Underflow`; both failures leave the state
completely unchanged; an in-range pop succeeds and returns exactly the
first `n` buffered bytes, which are removed from the front. -/
theorem c5_pop_amended (q : BufferQueue) (r : Ringbuf) (n m : Int)
    (hq : QInv q) (hr : WFr r) :
    (n < 0 → BufferQueue_dopop q n = (.error .invalidArg, q)) ∧
    (0 ≤ n → (q.tot_length : Int) < n → BufferQueue_dopop q n = (.error .underflow, q)) ∧
    (0 ≤ n → n ≤ (q.tot_length : Int) →
      (BufferQueue_dopop q n).1 = .ok ((qContents q).take n.toNat) ∧
      qContents (BufferQueue_dopop q n).2 = (qContents q).drop n.toNat) ∧
    (m < 0 → Ringbuf_dopop r m = (.error .invalidArg, r)) ∧
    (0 ≤ m → (r.length : Int) < m → Ringbuf_dopop r m = (.error .underflow, r)) ∧
    (0 ≤ m → m ≤ (r.length : Int) →
      (Ringbuf_dopop r m).1 = .ok ((rcontents r).take m.toNat) ∧
      rcontents (Ringbuf_dopop r m).2 = (rcontents r).drop m.toNat) := by
  obtain ⟨h1, h2, h3⟩ := BufferQueue_dopop_spec q n hq
  refine ⟨h1, h2, ?_, ?_, ?_, ?_⟩
  · intro hn hle
    obtain ⟨heq, _, hc, _, _⟩ := h3 hn hle
    exact ⟨by rw [heq], hc⟩
  · intro hm
    rw [Ringbuf_dopop, if_pos hm]
  · intro hm hu
    have hpop : Ringbuf_pop r m.toNat = none := Ringbuf_pop_none r m.toNat (by omega)
    simp only [Ringbuf_dopop, if_neg (by omega : ¬ m < 0), hpop]
  · intro hm hle
    obtain ⟨r', hpop, _, hc, _, _, _, _⟩ := Ringbuf_pop_spec r m.toNat hr (by omega)
    simp only [Ringbuf_dopop, if_neg (by omega : ¬ m < 0), hpop]
    exact ⟨by trivial, hc⟩

/-- Witness for `c5_pop_amended`: a queue holding `[1,2,3]` and the ring
`ring1` holding `[1,10]`, popping 2 and 1 bytes respectively. -/
theorem c5_pop_amended_witness :
    QInv (BufferQueue_push (BufferQueue_mk none) [1,2,3]) ∧ WFr ring1 ∧
    (((2 : Int) < 0 → BufferQueue_dopop (BufferQueue_push (BufferQueue_mk none) [1,2,3]) 2 =
      (.error .invalidArg, BufferQueue_push (BufferQueue_mk none) [1,2,3])) ∧
    ((0 : Int) ≤ 2 → ((BufferQueue_push (BufferQueue_mk none) [1,2,3]).tot_length : Int) < 2 →
      BufferQueue_dopop (BufferQueue_push (BufferQueue_mk none) [1,2,3]) 2 =
      (.error .underflow, BufferQueue_push (BufferQueue_mk none) [1,2,3])) ∧
    ((0 : Int) ≤ 2 → (2 : Int) ≤ ((BufferQueue_push (BufferQueue_mk none) [1,2,3]).tot_length : Int) →
      (BufferQueue_dopop (BufferQueue_push (BufferQueue_mk none) [1,2,3]) 2).1 =
        .ok ((qContents (BufferQueue_push (BufferQueue_mk none) [1,2,3])).take (2 : Int).toNat) ∧
      qContents (BufferQueue_dopop (BufferQueue_push (BufferQueue_mk none) [1,2,3]) 2).2 =
        (qContents (BufferQueue_push (BufferQueue_mk none) [1,2,3])).drop (2 : Int).toNat) ∧
    ((1 : Int) < 0 → Ringbuf_dopop ring1 1 = (.error .invalidArg, ring1)) ∧
    ((0 : Int) ≤ 1 → (ring1.length : Int) < 1 → Ringbuf_dopop ring1 1 = (.error .underflow, ring1)) ∧
    ((0 : Int) ≤ 1 → (1 : Int) ≤ (ring1.length : Int) →
      (Ringbuf_dopop ring1 1).1 = .ok ((rcontents ring1).take (1 : Int).toNat) ∧
      rcontents (Ringbuf_dopop ring1 1).2 = (rcontents ring1).drop (1 : Int).toNat)) :=
  ⟨by decide, by decide,
   c5_pop_amended (BufferQueue_push (BufferQueue_mk none) [1,2,3]) ring1 2 1
     (by decide) (by decide)⟩

/-- C7: with no delimiter configured and none supplied, or with an empty
delimiter (configured or supplied as the override), `pop_line` fails with
`NoDelimiter` and returns the state entirely unchanged, for both
structures; and configuring an empty delimiter produces exactly the same
state as clearing the delimiter, so every subsequent operation
(`find_delimiter` and `pop_line` included) behaves identically. -/
theorem c7_no_delimiter (q : BufferQueue) (r : Ringbuf) (ov : Option (List Nat)) :
    (q.delim_obj = none → BufferQueue_popline q none = (.error .noDelim, q)) ∧
    (effDelim q ov = some [] → BufferQueue_popline q ov = (.error .noDelim, q)) ∧
    BufferQueue_setdelim q (some []) = BufferQueue_setdelim q none ∧
    (r.delimiter = [] → Ringbuf_dopopline r = (.error .noDelim, r)) ∧
    Ringbuf_setdelim r (some []) = Ringbuf_setdelim r none := by
  refine ⟨?_, ?_, rfl, ?_, rfl⟩
  · intro h
    simp only [BufferQueue_popline, effDelim, h]
  · intro h
    simp only [BufferQueue_popline, h, List.length_nil, if_pos]
  · intro h
    rw [Ringbuf_dopopline, if_pos (by rw [h]; rfl)]

/-- Witness for `c7_no_delimiter` on a fresh queue and a fresh ring. -/
theorem c7_no_delimiter_witness :
    ((BufferQueue_mk none).delim_obj = none →
      BufferQueue_popline (BufferQueue_mk none) none = (.error .noDelim, BufferQueue_mk none)) ∧
    (effDelim (BufferQueue_mk none) (some []) = some [] →
      BufferQueue_popline (BufferQueue_mk none) (some []) =
        (.error .noDelim, BufferQueue_mk none)) ∧
    BufferQueue_setdelim (BufferQueue_mk none) (some []) =
      BufferQueue_setdelim (BufferQueue_mk none) none ∧
    ((Ringbuf_mk 4 none).delimiter = [] →
      Ringbuf_dopopline (Ringbuf_mk 4 none) = (.error .noDelim, Ringbuf_mk 4 none)) ∧
    Ringbuf_setdelim (Ringbuf_mk 4 none) (some []) =
      Ringbuf_setdelim (Ringbuf_mk 4 none) none :=
  c7_no_delimiter (BufferQueue_mk none) (Ringbuf_mk 4 none) (some [])

/-- C8: pushing the empty byte string is a complete no-op for both
structures: the segmented queue returns without touching anything
(src/qbufmodule.c:117-118), and the ring buffer succeeds while leaving
storage, pointers and length exactly as they were (the two `memcpy`s copy
zero bytes). -/
theorem c8_empty_push (q : BufferQueue) (r : Ringbuf) (h : WFr r) :
    BufferQueue_push q [] = q ∧ Ringbuf_push r [] = (.ok (), r) := by
  obtain ⟨hst, hps, hpe, hlen, hmod⟩ := h
  refine ⟨rfl, ?_⟩
  have hwb : writeBytes r.storage r.ptr_end [] = r.storage := by
    simp [writeBytes]
  rw [Ringbuf_push, if_neg (by simp only [List.length_nil]; omega),
    if_neg (by simp only [List.length_nil]; omega), hwb]
  rfl

/-- Witness for `c8_empty_push` on `badQ1` and `ring1`. -/
theorem c8_empty_push_witness :
    BufferQueue_push badQ1 [] = badQ1 ∧ Ringbuf_push ring1 [] = (.ok (), ring1) :=
  c8_empty_push badQ1 ring1 (by decide)

/-!
### Mass conservation (C3): step and run lemmas
-/

theorem runQ_cons_1 (q : BufferQueue) (op : QOp) (ops : List QOp) :
    (runQ q (op :: ops)).1 = (qstep q op).1 :: (runQ (qstep q op).2.2 ops).1 := rfl

theorem runQ_cons_21 (q : BufferQueue) (op : QOp) (ops : List QOp) :
    (runQ q (op :: ops)).2.1 = (qstep q op).2.1 :: (runQ (qstep q op).2.2 ops).2.1 := rfl

theorem runQ_cons_22 (q : BufferQueue) (op : QOp) (ops : List QOp) :
    (runQ q (op :: ops)).2.2 = (runQ (qstep q op).2.2 ops).2.2 := rfl

theorem runR_cons_1 (r : Ringbuf) (op : ROp) (ops : List ROp) :
    (runR r (op :: ops)).1 = (rstep r op).1 :: (runR (rstep r op).2.2 ops).1 := rfl

theorem runR_cons_21 (r : Ringbuf) (op : ROp) (ops : List ROp) :
    (runR r (op :: ops)).2.1 = (rstep r op).2.1 :: (runR (rstep r op).2.2 ops).2.1 := rfl

theorem runR_cons_22 (r : Ringbuf) (op : ROp) (ops : List ROp) :
    (runR r (op :: ops)).2.2 = (runR (rstep r op).2.2 ops).2.2 := rfl

theorem qstep_push_eq (q : BufferQueue) (s : List Nat) :
    qstep q (QOp.push s) = ([], s, BufferQueue_push q s) := rfl

theorem qstep_stored_pop (q : BufferQueue) (op : QOp) (hop : op.isPopOp = true) :
    (qstep q op).2.1 = [] := by
  cases op with
  | push s => exact absurd hop (by simp [QOp.isPopOp])
  | pop n =>
    show (match BufferQueue_dopop q n with
      | (.ok v, q') => (v, ([] : List Nat), q')
      | (.error _, q') => ([], [], q')).2.1 = []
    rcases hdp : BufferQueue_dopop q n with ⟨ve, q'⟩
    cases ve <;> rfl
  | popAtMost n =>
    show (match BufferQueue_dopop_atmost q n with
      | (.ok v, q') => (v, ([] : List Nat), q')
      | (.error _, q') => ([], [], q')).2.1 = []
    rcases hdp : BufferQueue_dopop_atmost q n with ⟨ve, q'⟩
    cases ve <;> rfl
  | popLine ov =>
    rcases hdo : effDelim q ov with _ | d
    · simp only [qstep, hdo]
    · by_cases hz : d.length = 0
      · simp only [qstep, hdo, if_pos hz]
      · by_cases hm : BufferQueue_find_delim q d = -1
        · simp only [qstep, hdo, if_neg hz, if_pos hm]
        · rcases hps : BufferQueue_popSigned q (BufferQueue_find_delim q d) with _ | ⟨line, q1⟩
          · simp only [qstep, hdo, if_neg hz, if_neg hm, hps]
          · simp only [qstep, hdo, if_neg hz, if_neg hm, hps]

theorem rstep_stored_pop (r : Ringbuf) (op : ROp) (hop : op.isPopOp = true) :
    (rstep r op).2.1 = [] := by
  cases op with
  | push s => exact absurd hop (by simp [ROp.isPopOp])
  | pop n =>
    show (match Ringbuf_dopop r n with
      | (.ok v, r') => (v, ([] : List Nat), r')
      | (.error _, r') => ([], [], r')).2.1 = []
    rcases hdp : Ringbuf_dopop r n with ⟨ve, r'⟩
    cases ve <;> rfl
  | popLine =>
    show (match Ringbuf_dopopline r with
      | (.ok v, r') => (v, ([] : List Nat), r')
      | (.error _, r') => ([], [], r')).2.1 = []
    rcases hdp : Ringbuf_dopopline r with ⟨ve, r'⟩
    cases ve <;> rfl

theorem QInv_setdelim (q : BufferQueue) (v : Option (List Nat)) :
    QInv (BufferQueue_setdelim q v) ↔ QInv q := by
  cases v with
  | none => exact Iff.rfl
  | some dd =>
    simp only [BufferQueue_setdelim]
    split
    · exact Iff.rfl
    · exact Iff.rfl

theorem qContents_setdelim (q : BufferQueue) (v : Option (List Nat)) :
    qContents (BufferQueue_setdelim q v) = qContents q := by
  cases v with
  | none => rfl
  | some dd =>
    simp only [BufferQueue_setdelim]
    split
    · rfl
    · rfl

theorem BufferQueue_mk_QInv (d : Option (List Nat)) : QInv (BufferQueue_mk d) :=
  (QInv_setdelim _ d).mpr (by decide)

theorem BufferQueue_mk_contents (d : Option (List Nat)) : qContents (BufferQueue_mk d) = [] := by
  rw [BufferQueue_mk, qContents_setdelim]
  rfl

theorem Ringbuf_mk_WFr (sz : Nat) (rd : Option (List Nat)) : WFr (Ringbuf_mk sz rd) :=
  ⟨List.length_replicate _ _, Nat.zero_le _, Nat.zero_le _, Nat.zero_le _, rfl⟩

theorem Ringbuf_mk_contents (sz : Nat) (rd : Option (List Nat)) :
    rcontents (Ringbuf_mk sz rd) = [] := rfl

theorem qstep_conserve (q : BufferQueue) (op : QOp) (h : QInv q) :
    QInv (qstep q op).2.2 ∧
    (qstep q op).1 ++ qContents (qstep q op).2.2 = qContents q ++ (qstep q op).2.1 := by
  cases op with
  | push s =>
    obtain ⟨hQ, hc, _, _⟩ := BufferQueue_push_spec q s h
    refine ⟨hQ, ?_⟩
    show [] ++ qContents (BufferQueue_push q s) = qContents q ++ s
    rw [List.nil_append, hc]
  | pop n =>
    by_cases hn : n < 0
    · have hdp : BufferQueue_dopop q n = (.error .invalidArg, q) :=
        (BufferQueue_dopop_spec q n h).1 hn
      simp only [qstep, hdp]
      exact ⟨h, by simp⟩
    · by_cases hu : (q.tot_length : Int) < n
      · have hdp : BufferQueue_dopop q n = (.error .underflow, q) :=
          (BufferQueue_dopop_spec q n h).2.1 (by omega) hu
        simp only [qstep, hdp]
        exact ⟨h, by simp⟩
      · obtain ⟨heq, hQ, hc, _, _⟩ :=
          (BufferQueue_dopop_spec q n h).2.2 (by omega) (by omega)
        rw [heq] at hQ hc
        simp only [qstep, heq]
        exact ⟨hQ, by rw [hc, List.take_append_drop, List.append_nil]⟩
  | popAtMost n =>
    by_cases hn : n < 0
    · have hdp : BufferQueue_dopop_atmost q n = (.error .invalidArg, q) :=
        (BufferQueue_dopop_atmost_spec q n h).1 hn
      simp only [qstep, hdp]
      exact ⟨h, by simp⟩
    · obtain ⟨heq, hQ, hc, _, _⟩ := (BufferQueue_dopop_atmost_spec q n h).2 (by omega)
      rw [heq] at hQ hc
      simp only [qstep, heq]
      exact ⟨hQ, by rw [hc, List.take_append_drop, List.append_nil]⟩
  | popLine ov =>
    rcases hdo : effDelim q ov with _ | d
    · simp only [qstep, hdo]
      exact ⟨h, by simp⟩
    · by_cases hz : d.length = 0
      · simp only [qstep, hdo, if_pos hz]
        exact ⟨h, by simp⟩
      · by_cases hm : BufferQueue_find_delim q d = -1
        · simp only [qstep, hdo, if_neg hz, if_pos hm]
          exact ⟨h, by simp⟩
        · by_cases hneg : BufferQueue_find_delim q d < 0
          · simp only [qstep, hdo, if_neg hz, if_neg hm, BufferQueue_popSigned,
              if_pos hneg]
            exact ⟨h, by simp⟩
          · obtain ⟨_, _, hQ, hc, _, _, _, hcat⟩ := popline_pops_spec q d h hz hm hneg
            simp only [qstep, hdo, if_neg hz, if_neg hm, BufferQueue_popSigned,
              if_neg hneg]
            refine ⟨hQ, ?_⟩
            rw [List.append_assoc]
            rw [← List.append_assoc, hcat, hc, List.take_append_drop, List.append_nil]

theorem runQ_conserve (ops : List QOp) : ∀ q : BufferQueue, QInv q →
    QInv (runQ q ops).2.2 ∧
    (runQ q ops).1.flatten ++ qContents (runQ q ops).2.2 =
      qContents q ++ (runQ q ops).2.1.flatten := by
  induction ops with
  | nil =>
    intro q h
    exact ⟨h, by simp [runQ]⟩
  | cons op tl ih =>
    intro q h
    obtain ⟨hQ1, hc1⟩ := qstep_conserve q op h
    obtain ⟨hQ2, hc2⟩ := ih (qstep q op).2.2 hQ1
    refine ⟨by rw [runQ_cons_22]; exact hQ2, ?_⟩
    rw [runQ_cons_1, runQ_cons_21, runQ_cons_22, List.flatten_cons, List.flatten_cons,
      List.append_assoc, hc2, ← List.append_assoc, hc1, List.append_assoc]

theorem runQ_pushes (l : List (List Nat)) : ∀ q : BufferQueue,
    (runQ q (l.map QOp.push)).1.flatten = [] ∧
    (runQ q (l.map QOp.push)).2.1 = l := by
  induction l with
  | nil => intro q; exact ⟨rfl, rfl⟩
  | cons s tl ih =>
    intro q
    obtain ⟨h1, h2⟩ := ih (BufferQueue_push q s)
    constructor
    · simp only [List.map_cons, runQ_cons_1, qstep_push_eq, List.flatten_cons,
        List.nil_append]
      exact h1
    · simp only [List.map_cons, runQ_cons_21, qstep_push_eq]
      rw [h2]

theorem runQ_popops_stored (ops : List QOp) : ∀ q : BufferQueue,
    (∀ op ∈ ops, op.isPopOp = true) → (runQ q ops).2.1.flatten = [] := by
  induction ops with
  | nil => intro q _; rfl
  | cons op tl ih =>
    intro q hops
    rw [runQ_cons_21, List.flatten_cons,
      qstep_stored_pop q op (hops op (List.mem_cons_self op tl)), List.nil_append]
    exact ih (qstep q op).2.2 (fun o ho => hops o (List.mem_cons_of_mem op ho))

theorem rstep_conserve (r : Ringbuf) (op : ROp) (h : WFr r) :
    WFr (rstep r op).2.2 ∧
    (rstep r op).1 ++ rcontents (rstep r op).2.2 = rcontents r ++ (rstep r op).2.1 := by
  cases op with
  | push s =>
    by_cases hov : r.buffer_size < s.length + r.length
    · have hp : Ringbuf_push r s = (.error (), r) := by
        rw [Ringbuf_push, if_pos hov]
      simp only [rstep, hp]
      exact ⟨h, by simp⟩
    · obtain ⟨hok, hW, hc, _, _, _, _⟩ := Ringbuf_push_spec r s h (by omega)
      rcases hps : Ringbuf_push r s with ⟨e, r2⟩
      have h1 : (Ringbuf_push r s).1 = e := by rw [hps]
      have h22 : (Ringbuf_push r s).2 = r2 := by rw [hps]
      rw [h1] at hok
      rw [h22] at hW hc
      cases e with
      | error u => exact Except.noConfusion hok
      | ok u =>
        simp only [rstep, hps]
        exact ⟨hW, by rw [List.nil_append]; exact hc⟩
  | pop n =>
    by_cases hn : n < 0
    · have hdp : Ringbuf_dopop r n = (.error .invalidArg, r) := by
        rw [Ringbuf_dopop, if_pos hn]
      simp only [rstep, hdp]
      exact ⟨h, by simp⟩
    · by_cases hu : r.length < n.toNat
      · have hdp : Ringbuf_dopop r n = (.error .underflow, r) := by
          rw [Ringbuf_dopop, if_neg hn]
          simp only [Ringbuf_pop_none r n.toNat hu]
        simp only [rstep, hdp]
        exact ⟨h, by simp⟩
      · obtain ⟨r', hpop, hW, hc, _, _, _, _⟩ := Ringbuf_pop_spec r n.toNat h (by omega)
        have hdp : Ringbuf_dopop r n = (.ok ((rcontents r).take n.toNat), r') := by
          rw [Ringbuf_dopop, if_neg hn]
          simp only [hpop]
        simp only [rstep, hdp]
        exact ⟨hW, by rw [hc, List.take_append_drop, List.append_nil]⟩
  | popLine =>
    by_cases hz : r.delimiter.length = 0
    · have hdp : Ringbuf_dopopline r = (.error .noDelim, r) := by
        rw [Ringbuf_dopopline, if_pos hz]
      simp only [rstep, hdp]
      exact ⟨h, by simp⟩
    · rcases hfd : Ringbuf_find_delim r with _ | k
      · have hdp : Ringbuf_dopopline r = (.error .notFound, r) := by
          rw [Ringbuf_dopopline, if_neg hz]
          simp only [hfd]
        simp only [rstep, hdp]
        exact ⟨h, by simp⟩
      · have hb := Ringbuf_find_delim_bound r k hfd
        obtain ⟨r', hpop, hW, hc, _, _, _, _⟩ :=
          Ringbuf_pop_spec r (k + r.delimiter.length) h hb
        have hdp : Ringbuf_dopopline r =
            (.ok ((rcontents r).take (k + r.delimiter.length)), r') := by
          rw [Ringbuf_dopopline, if_neg hz]
          simp only [hfd, hpop]
        simp only [rstep, hdp]
        exact ⟨hW, by rw [hc, List.take_append_drop, List.append_nil]⟩

theorem runR_conserve (ops : List ROp) : ∀ r : Ringbuf, WFr r →
    WFr (runR r ops).2.2 ∧
    (runR r ops).1.flatten ++ rcontents (runR r ops).2.2 =
      rcontents r ++ (runR r ops).2.1.flatten := by
  induction ops with
  | nil =>
    intro r h
    exact ⟨h, by simp [runR]⟩
  | cons op tl ih =>
    intro r h
    obtain ⟨hW1, hc1⟩ := rstep_conserve r op h
    obtain ⟨hW2, hc2⟩ := ih (rstep r op).2.2 hW1
    refine ⟨by rw [runR_cons_22]; exact hW2, ?_⟩
    rw [runR_cons_1, runR_cons_21, runR_cons_22, List.flatten_cons, List.flatten_cons,
      List.append_assoc, hc2, ← List.append_assoc, hc1, List.append_assoc]

theorem runR_pushes (l : List (List Nat)) : ∀ r : Ringbuf, WFr r →
    r.length + l.flatten.length ≤ r.buffer_size →
    (runR r (l.map ROp.push)).1.flatten = [] ∧
    (runR r (l.map ROp.push)).2.1 = l ∧
    WFr (runR r (l.map ROp.push)).2.2 ∧
    rcontents (runR r (l.map ROp.push)).2.2 = rcontents r ++ l.flatten ∧
    (runR r (l.map ROp.push)).2.2.length = r.length + l.flatten.length ∧
    (runR r (l.map ROp.push)).2.2.buffer_size = r.buffer_size := by
  induction l with
  | nil =>
    intro r h _
    exact ⟨rfl, rfl, h, by simp [runR], by simp [runR], rfl⟩
  | cons s tl ih =>
    intro r h hfit
    have hfl : s.length + tl.flatten.length = (s :: tl).flatten.length := by
      rw [List.flatten_cons, List.length_append]
    obtain ⟨hok, hW, hc, hlen, hbs, _, _⟩ := Ringbuf_push_spec r s h (by omega)
    rcases hps : Ringbuf_push r s with ⟨e, r2⟩
    have h1 : (Ringbuf_push r s).1 = e := by rw [hps]
    have h22 : (Ringbuf_push r s).2 = r2 := by rw [hps]
    rw [h1] at hok
    rw [h22] at hW hc hlen hbs
    cases e with
    | error u => exact Except.noConfusion hok
    | ok u =>
    have hstep : rstep r (ROp.push s) = ([], s, r2) := by
      simp only [rstep, hps]
    obtain ⟨ih1, ih2, ih3, ih4, ih5, ih6⟩ := ih r2 hW
      (by rw [hlen, hbs]; omega)
    refine ⟨?_, ?_, ?_, ?_, ?_, ?_⟩
    · simp only [List.map_cons, runR_cons_1, hstep, List.flatten_cons, List.nil_append]
      exact ih1
    · simp only [List.map_cons, runR_cons_21, hstep]
      rw [ih2]
    · simp only [List.map_cons, runR_cons_22, hstep]
      exact ih3
    · simp only [List.map_cons, runR_cons_22, hstep, List.flatten_cons]
      rw [ih4, hc, List.append_assoc]
    · simp only [List.map_cons, runR_cons_22, hstep, List.flatten_cons, List.length_append]
      rw [ih5, hlen]
      omega
    · simp only [List.map_cons, runR_cons_22, hstep]
      rw [ih6, hbs]

theorem runR_popops_stored (ops : List ROp) : ∀ r : Ringbuf,
    (∀ op ∈ ops, op.isPopOp = true) → (runR r ops).2.1.flatten = [] := by
  induction ops with
  | nil => intro r _; rfl
  | cons op tl ih =>
    intro r hops
    rw [runR_cons_21, List.flatten_cons,
      rstep_stored_pop r op (hops op (List.mem_cons_self op tl)), List.nil_append]
    exact ih (rstep r op).2.2 (fun o ho => hops o (List.mem_cons_of_mem op ho))

/-- C3: push/pop mass conservation for both structures.  Starting from a
fresh segmented queue, performing any sequence of pushes (growth included)
followed by any mix of pop, pop-at-most and pop_line operations that
together consume as many bytes as were pushed, the consumed bytes are
exactly the concatenation of the pushed strings in push order and the
final length is 0.  The same holds for a fresh ring buffer whose pushes
fit in its capacity, with its pop and pop_line operations.  (For
`pop_line` the consumed bytes include the delimiter bytes the C code pops
and discards.) -/
theorem c3_mass_conservation
    (d : Option (List Nat)) (pushes : List (List Nat)) (ops : List QOp)
    (hops : ∀ op ∈ ops, op.isPopOp = true)
    (hL : ((runQ (runQ (BufferQueue_mk d) (pushes.map QOp.push)).2.2 ops).1.flatten).length =
      pushes.flatten.length)
    (sz : Nat) (rd : Option (List Nat)) (rpushes : List (List Nat)) (rops : List ROp)
    (hrops : ∀ op ∈ rops, op.isPopOp = true)
    (hfit : rpushes.flatten.length ≤ sz)
    (hRL : ((runR (runR (Ringbuf_mk sz rd) (rpushes.map ROp.push)).2.2 rops).1.flatten).length =
      rpushes.flatten.length) :
    (runQ (runQ (BufferQueue_mk d) (pushes.map QOp.push)).2.2 ops).1.flatten =
      pushes.flatten ∧
    (runQ (runQ (BufferQueue_mk d) (pushes.map QOp.push)).2.2 ops).2.2.tot_length = 0 ∧
    (runR (runR (Ringbuf_mk sz rd) (rpushes.map ROp.push)).2.2 rops).1.flatten =
      rpushes.flatten ∧
    (runR (runR (Ringbuf_mk sz rd) (rpushes.map ROp.push)).2.2 rops).2.2.length = 0 := by
  obtain ⟨hp1, hp2⟩ := runQ_pushes pushes (BufferQueue_mk d)
  obtain ⟨hQ1, hc1⟩ := runQ_conserve (pushes.map QOp.push) (BufferQueue_mk d)
    (BufferQueue_mk_QInv d)
  rw [hp1, hp2, BufferQueue_mk_contents, List.nil_append, List.nil_append] at hc1
  obtain ⟨hQ2, hc2⟩ := runQ_conserve ops _ hQ1
  rw [runQ_popops_stored ops _ hops, hc1, List.append_nil] at hc2
  have hlen := congrArg List.length hc2
  rw [List.length_append, hL] at hlen
  have hF : qContents
      (runQ (runQ (BufferQueue_mk d) (pushes.map QOp.push)).2.2 ops).2.2 = [] :=
    List.eq_nil_of_length_eq_zero (by omega)
  rw [hF, List.append_nil] at hc2
  obtain ⟨_, htot⟩ := hQ2
  obtain ⟨hr1, hr2, hrW, hrc, hrlen, hrbs⟩ := runR_pushes rpushes (Ringbuf_mk sz rd)
    (Ringbuf_mk_WFr sz rd)
    (by show 0 + rpushes.flatten.length ≤ sz; omega)
  rw [Ringbuf_mk_contents, List.nil_append] at hrc
  obtain ⟨hRW2, hrc2⟩ := runR_conserve rops _ hrW
  rw [runR_popops_stored rops _ hrops, hrc, List.append_nil] at hrc2
  have hrlen2 := congrArg List.length hrc2
  rw [List.length_append, hRL] at hrlen2
  have hRF : rcontents
      (runR (runR (Ringbuf_mk sz rd) (rpushes.map ROp.push)).2.2 rops).2.2 = [] :=
    List.eq_nil_of_length_eq_zero (by omega)
  rw [hRF, List.append_nil] at hrc2
  refine ⟨hc2, ?_, hrc2, ?_⟩
  · rw [htot, hF]
    rfl
  · rw [← rcontents_length, hRF]
    rfl

/-- Witness for `c3_mass_conservation`: queue pushes `[1,2]`, `[3]`
followed by `pop 1` and `pop_at_most 2`; ring of size 4 with delimiter
`[10]`, pushes `[5]`, `[6,10]` followed by one `pop_line` and `pop 0`. -/
theorem c3_mass_conservation_witness :
    (∀ op ∈ [QOp.pop 1, QOp.popAtMost 2], op.isPopOp = true) ∧
    ((runQ (runQ (BufferQueue_mk (some [10])) ([[1,2],[3]].map QOp.push)).2.2
      [QOp.pop 1, QOp.popAtMost 2]).1.flatten).length = [[1,2],[3]].flatten.length ∧
    (∀ op ∈ [ROp.popLine, ROp.pop 0], op.isPopOp = true) ∧
    [[5],[6,10]].flatten.length ≤ 4 ∧
    ((runR (runR (Ringbuf_mk 4 (some [10])) ([[5],[6,10]].map ROp.push)).2.2
      [ROp.popLine, ROp.pop 0]).1.flatten).length = [[5],[6,10]].flatten.length ∧
    ((runQ (runQ (BufferQueue_mk (some [10])) ([[1,2],[3]].map QOp.push)).2.2
      [QOp.pop 1, QOp.popAtMost 2]).1.flatten = [[1,2],[3]].flatten ∧
    (runQ (runQ (BufferQueue_mk (some [10])) ([[1,2],[3]].map QOp.push)).2.2
      [QOp.pop 1, QOp.popAtMost 2]).2.2.tot_length = 0 ∧
    (runR (runR (Ringbuf_mk 4 (some [10])) ([[5],[6,10]].map ROp.push)).2.2
      [ROp.popLine, ROp.pop 0]).1.flatten = [[5],[6,10]].flatten ∧
    (runR (runR (Ringbuf_mk 4 (some [10])) ([[5],[6,10]].map ROp.push)).2.2
      [ROp.popLine, ROp.pop 0]).2.2.length = 0) :=
  ⟨by decide, by decide, by decide, by decide, by decide,
   c3_mass_conservation (some [10]) [[1,2],[3]] [QOp.pop 1, QOp.popAtMost 2]
     (by decide) (by decide) 4 (some [10]) [[5],[6,10]] [ROp.popLine, ROp.pop 0]
     (by decide) (by decide) (by decide)⟩
